import Mathlib

/-!
Shallow embedding of the document-conversion core of `mcp-sphinx-docs`:
the `LLMOptimizer` chunker (`src/optimizers/llm-optimizer.ts`) and the
`SphinxConverter` RST-to-Markdown pipeline (`src/utils/file-handler.ts`).

Texts are modelled as `List Char` so that every JavaScript string and
regex operation of the source becomes a structurally recursive, decidable
Lean function.  JavaScript's `\s` character class and `String.trim` are
modelled by ASCII whitespace (space, tab, newline, carriage return); the
inputs considered contain no exotic Unicode whitespace and no carriage
returns, so the model agrees with the JavaScript behaviour there.
-/

/-- Texts: JavaScript strings as lists of characters. -/
abbrev Str := List Char

/-- Coerce a Lean string literal to the `Str` model. -/
def str (s : String) : Str := s.toList

/-- Model of JavaScript `\s` / `trim` whitespace (ASCII fragment). -/
def isWs (c : Char) : Bool := c = ' ' || c = '\t' || c = '\n' || c = '\r'

/-- JavaScript `String.prototype.trim`: strip whitespace at both ends. -/
def trimStr (s : Str) : Str :=
  ((s.dropWhile isWs).reverse.dropWhile isWs).reverse

/-- JavaScript `s.split(sep)` for a one-character separator `sep`:
splits at every occurrence, keeping empty pieces; `"".split(c) = [""]`. -/
def splitOnChar (sep : Char) : Str → List Str
  | [] => [[]]
  | c :: s =>
    if c = sep then [] :: splitOnChar sep s
    else
      match splitOnChar sep s with
      | [] => [[c]]
      | p :: ps => (c :: p) :: ps

/-- Prepend a character to the first piece of a split result. -/
def consPiece (c : Char) : List Str → List Str
  | [] => [[c]]
  | p :: ps => (c :: p) :: ps

/-- JavaScript `s.split('\\n')` — the doubled backslash in the source
string literal is literal, so this splits at leftmost non-overlapping
occurrences of the two-character sequence backslash-`n` (NOT at real
newlines), keeping empty pieces; `"".split(t) = [""]`. -/
def splitBN : Str → List Str
  | [] => [[]]
  | '\\' :: 'n' :: s => [] :: splitBN s
  | c :: s => consPiece c (splitBN s)

/-- JavaScript `s.split('\\n\\n')` — literal: split at leftmost
non-overlapping occurrences of the four-character sequence
backslash-`n`-backslash-`n`, keeping empty pieces. -/
def splitBNN : Str → List Str
  | [] => [[]]
  | '\\' :: 'n' :: '\\' :: 'n' :: s => [] :: splitBNN s
  | c :: s => consPiece c (splitBNN s)

/-- Does `t` occur at the very start of `s`? -/
def isLead : Str → Str → Bool
  | [], _ => true
  | _ :: _, [] => false
  | a :: as, b :: bs => a = b && isLead as bs

/-- Does `t` occur as a contiguous substring of `s`? -/
def containsSub : Str → Str → Bool
  | [], t => isLead t []
  | c :: s', t => isLead t (c :: s') || containsSub s' t

/-- Number of matches of the source's literal regex `/\\s+/` in `s`:
`\\` matches one backslash character and `s+` a run of `s` letters, so
a match is a backslash immediately followed by at least one `s`.  An
`s`-run contains no backslash, so the leftmost non-overlapping matches
are in bijection with the adjacent backslash-`s` character pairs, which
this function counts. -/
def countBSAux : Str → Nat
  | c1 :: c2 :: r => (if c1 = '\\' ∧ c2 = 's' then 1 else 0) + countBSAux (c2 :: r)
  | _ => 0

/-- `LLMOptimizer.countWords`: `text.trim().split(/\\s+/).length`.
The doubled backslash is literal: the split separator is a backslash
followed by a run of `s` letters, so the piece count is the number of
matches plus one (JavaScript splitting on a regex that cannot match the
empty string always yields matches+1 pieces, counting empty pieces;
in particular `''.trim().split(/\\s+/) = ['']` has length 1). -/
def countWords (text : Str) : Nat := countBSAux (trimStr text) + 1

/-- Decimal rendering of a chunk counter, as a `Str`. -/
def natStr (n : Nat) : Str := (toString n).toList

/-- JavaScript `.` (dot, without the `s` flag): any character except
the four line terminators. -/
def isDotChar (c : Char) : Bool :=
  !(c = '\n' || c = '\r' || c = ' ' || c = ' ')

/-- Match of the heading regex `^(#{1,6})\\s+(.+)` of `splitByHeaders`
— the doubled backslash is literal: after the run of 1–6 `#` the line
must continue with one literal backslash and a non-empty run of `s`
letters (real whitespace does not match); `(.+)` (which cannot cross a
real newline) then greedily captures the following characters up to the
next line terminator, and when nothing capturable follows the `s`-run,
backtracking makes `(.+)` capture the last `s`.  Ordinary headings like
`# Title` never match. -/
def matchHeader (line : Str) : Option (Nat × Str) :=
  let k := (line.takeWhile (· = '#')).length
  if 1 ≤ k ∧ k ≤ 6 then
    match line.drop k with
    | '\\' :: r2 =>
      let w := (r2.takeWhile (· = 's')).length
      if w = 0 then none
      else
        let cap := (r2.drop w).takeWhile isDotChar
        if cap ≠ [] then some (k, cap)
        else if 2 ≤ w then some (k, ['s'])
        else none
    | _ => none
  else none

/-- A section produced by `LLMOptimizer.splitByHeaders`. -/
structure MSection where
  title : Str
  content : Str
  level : Nat
deriving Repr, DecidableEq

/-- Loop of `LLMOptimizer.splitByHeaders`: `done` are the sections
already pushed, `cur` the section currently being accumulated. -/
def splitByHeadersAux : List Str → List MSection → Option MSection → List MSection
  | [], done, cur => done ++ cur.toList
  | line :: rest, done, cur =>
    match matchHeader line with
    | some (lvl, title) =>
        splitByHeadersAux rest (done ++ cur.toList) (some ⟨title, line, lvl⟩)
    | none =>
        match cur with
        | some c =>
            splitByHeadersAux rest done
              (some ⟨c.title, c.content ++ '\\' :: 'n' :: line, c.level⟩)
        | none =>
            match done with
            | [] => splitByHeadersAux rest [⟨str "Introduction", line, 1⟩] none
            | s0 :: tl =>
                splitByHeadersAux rest
                  (⟨s0.title, s0.content ++ '\\' :: 'n' :: line, s0.level⟩ :: tl) none

/-- `LLMOptimizer.splitByHeaders`: split Markdown into "lines" at the
literal two-character sequence `\n` (the source's `split('\\n')`), and
group them into sections at heading-regex matches; content before the
first match becomes an implicit "Introduction" section at level 1.
Accumulated content is re-joined with the literal sequence `\n` as
well (`+= '\\n' + line`). -/
def splitByHeaders (markdown : Str) : List MSection :=
  splitByHeadersAux (splitBN markdown) [] none

/-- The metadata keys that `LLMOptimizer` ever writes into a chunk's
`metadata` record. -/
structure ChunkMetadata where
  sections : List Str
  partOf : Option Str
  parentSection : Option Str
  chunkType : Option Str
deriving Repr, DecidableEq

/-- Empty metadata record. -/
def ChunkMetadata.empty : ChunkMetadata := ⟨[], none, none, none⟩

/-- `ContentChunk` of `llm-optimizer.ts`; `context` is absent until
`addChunkContext` sets it. -/
structure ContentChunk where
  id : Str
  title : Str
  content : Str
  wordCount : Nat
  metadata : ChunkMetadata
  context : Option Str
deriving Repr, DecidableEq

/-- `OptimizationOptions` of `llm-optimizer.ts` (after merging with the
defaults, so every field is present). -/
structure OptimizationOptions where
  chunkSize : Nat
  preserveReferences : Bool
  addContextHeaders : Bool
  simplifyStructure : Bool
  removeRedundancy : Bool
deriving Repr, DecidableEq

/-- The `defaultOptions` record of `LLMOptimizer`. -/
def defaultOptions : OptimizationOptions :=
  ⟨4000, true, true, true, true⟩

/-- Title of the `i`-th piece of a split section: `"T (Part i)"`. -/
def mkPartTitle (t : Str) (i : Nat) : Str :=
  t ++ str " (Part " ++ natStr i ++ [')']

/-- Chunk pushed inside the loop of `splitLargeSection`. -/
def mkMidChunk (t : Str) (cur : Str) (i : Nat) : ContentChunk :=
  { id := t ++ '-' :: natStr i
    title := mkPartTitle t i
    content := trimStr cur
    wordCount := countWords cur
    metadata := { ChunkMetadata.empty with partOf := some t }
    context := none }

/-- Chunk pushed after the loop of `splitLargeSection`; its title keeps
the plain section title when it is the very first piece. -/
def mkLastChunk (t : Str) (cur : Str) (i : Nat) : ContentChunk :=
  { id := t ++ '-' :: natStr i
    title := if 1 < i then mkPartTitle t i else t
    content := trimStr cur
    wordCount := countWords cur
    metadata := { ChunkMetadata.empty with partOf := some t }
    context := none }

/-- Loop of `LLMOptimizer.splitLargeSection`: greedy accumulation of
paragraphs into `cur`; `idx` is the number of chunks already pushed. -/
def splitLargeSectionAux (t : Str) (maxSize : Nat) :
    List Str → Str → Nat → List ContentChunk
  | [], cur, idx =>
      if trimStr cur ≠ [] then [mkLastChunk t cur (idx + 1)] else []
  | p :: ps, cur, idx =>
      if countWords cur + countWords p ≤ maxSize ∧ cur ≠ [] then
        splitLargeSectionAux t maxSize ps (cur ++ '\\' :: 'n' :: '\\' :: 'n' :: p) idx
      else
        if trimStr cur ≠ [] then
          mkMidChunk t cur (idx + 1) :: splitLargeSectionAux t maxSize ps p (idx + 1)
        else
          splitLargeSectionAux t maxSize ps p idx

/-- `LLMOptimizer.splitLargeSection`: split one oversized section into
"paragraphs" at the literal four-character sequence `\n\n` (the
source's `split('\\n\\n')` — real blank lines are not boundaries),
greedily packing paragraphs; accumulation re-joins with the same
literal sequence (`+= '\\n\\n' + paragraph`). -/
def splitLargeSection (secTitle : Str) (content : Str) (maxSize : Nat) :
    List ContentChunk :=
  splitLargeSectionAux secTitle maxSize (splitBNN content) [] 0

/-- Chunk id `chunk-${n}` used by `chunkContent`. -/
def chunkId (n : Nat) : Str := str "chunk-" ++ natStr n

/-- Re-wrapping that `chunkContent` applies to each sub-chunk returned
by `splitLargeSection`: fresh id, `parentSection`/`chunkType` metadata
(the inner `partOf` metadata is discarded). -/
def rewrapSubs (secTitle : Str) : Nat → List ContentChunk → List ContentChunk
  | _, [] => []
  | i, sub :: subs =>
      { id := chunkId i
        title := sub.title
        content := sub.content
        wordCount := sub.wordCount
        metadata := { ChunkMetadata.empty with
                        parentSection := some secTitle
                        chunkType := some (str "subsection") }
        context := none } :: rewrapSubs secTitle (i + 1) subs

/-- Fresh section-chunk created by `chunkContent` (id `chunk-${i}`; an
empty section title falls back to `Chunk ${i}`). -/
def newSectionChunk (sec : MSection) (swc : Nat) (i : Nat) : ContentChunk :=
  { id := chunkId i
    title := if sec.title = [] then str "Chunk " ++ natStr i else sec.title
    content := sec.content
    wordCount := swc
    metadata := { ChunkMetadata.empty with
                    sections := [sec.title]
                    chunkType := some (str "section") }
    context := none }

/-- Loop of `LLMOptimizer.chunkContent`: `acc` are the chunks already
pushed, `cur` the accumulating chunk, `idx` the id counter. -/
def chunkContentAux (chunkSize : Nat) :
    List MSection → List ContentChunk → Option ContentChunk → Nat → List ContentChunk
  | [], acc, cur, _ => acc ++ cur.toList
  | sec :: rest, acc, cur, idx =>
    match cur with
    | some c =>
      if c.wordCount + countWords sec.content ≤ chunkSize then
        chunkContentAux chunkSize rest acc
          (some { c with
                    content := c.content ++ '\\' :: 'n' :: '\\' :: 'n' :: sec.content
                    wordCount := c.wordCount + countWords sec.content
                    metadata := { c.metadata with
                                    sections := c.metadata.sections ++ [sec.title] } })
          idx
      else if chunkSize < countWords sec.content then
        chunkContentAux chunkSize rest
          (acc ++ [c] ++ rewrapSubs sec.title (idx + 1)
            (splitLargeSection sec.title sec.content chunkSize))
          none (idx + (splitLargeSection sec.title sec.content chunkSize).length)
      else
        chunkContentAux chunkSize rest (acc ++ [c])
          (some (newSectionChunk sec (countWords sec.content) (idx + 1))) (idx + 1)
    | none =>
      if chunkSize < countWords sec.content then
        chunkContentAux chunkSize rest
          (acc ++ rewrapSubs sec.title (idx + 1)
            (splitLargeSection sec.title sec.content chunkSize))
          none (idx + (splitLargeSection sec.title sec.content chunkSize).length)
      else
        chunkContentAux chunkSize rest acc
          (some (newSectionChunk sec (countWords sec.content) (idx + 1))) (idx + 1)

/-- Default chunk used only to make out-of-range list indexing total
(the source never indexes out of range). -/
def dummyChunk : ContentChunk :=
  ⟨[], [], [], 0, ChunkMetadata.empty, none⟩

/-- The `context` string `addChunkContext` computes for the chunk at
position `i` (0-based) of `all`. -/
def mkChunkContext (all : List ContentChunk) (i : Nat) : Str :=
  if 1 < all.length then
    str "Document part " ++ natStr (i + 1) ++ str " of " ++ natStr all.length
      ++ (if 0 < i then
            str " | Previous: \"" ++ (all.getD (i - 1) dummyChunk).title ++ ['"']
          else [])
      ++ (if i < all.length - 1 then
            str " | Next: \"" ++ (all.getD (i + 1) dummyChunk).title ++ ['"']
          else [])
  else []

/-- Positional map of `LLMOptimizer.addChunkContext`. -/
def addChunkContextAux (all : List ContentChunk) : Nat → List ContentChunk → List ContentChunk
  | _, [] => []
  | i, c :: cs =>
      { c with context := some (mkChunkContext all i) } :: addChunkContextAux all (i + 1) cs

/-- `LLMOptimizer.addChunkContext`: annotate every chunk with its
navigational context. -/
def addChunkContext (chunks : List ContentChunk) : List ContentChunk :=
  addChunkContextAux chunks 0 chunks

/-- `LLMOptimizer.chunkContent`: split Markdown into bounded-size,
context-annotated chunks. -/
def chunkContent (markdown : Str) (opts : OptimizationOptions) : List ContentChunk :=
  addChunkContext (chunkContentAux opts.chunkSize (splitByHeaders markdown) [] none 0)

/-!
Cleanup transforms of `LLMOptimizer.optimize` (the two rewrites the
idempotence property is about): `replace(/^#{5,}\\s+/gm, '#### ')` of
`simplifyStructure` and `replace(/\\n{3,}/g, '\\n\\n')` of
`removeRedundancy`.  The doubled backslashes are literal: the first
pattern needs a literal backslash and `s`-run after the `#` run (so it
never fires on a real heading), and the second matches a literal
backslash followed by three or more `n` letters (so it never collapses
real blank lines).  In `optimize`, `simplifyStructure` runs before
`removeRedundancy`.
-/

/-- Scanner for `replace(/^#{5,}\\s+/gm, '#### ')` — literal.
`atStart` records whether the current position is a line start
(position 0 or preceded by a real newline — the `m` flag anchors `^` at
real line starts).  A match is a run of five or more `#`, one literal
backslash, and a non-empty run of `s` letters; it contains no real
newline, so scanning resumes mid-line with the flag down. -/
def clampAux : Str → Bool → Str
  | [], _ => []
  | c :: s, atStart =>
    let k := ((c :: s).takeWhile (· = '#')).length
    let rest := (c :: s).drop k
    if h : atStart ∧ 5 ≤ k ∧ isLead ['\\'] rest ∧ (rest.drop 1).takeWhile (· = 's') ≠ [] then
      str "#### " ++
        clampAux ((rest.drop 1).drop ((rest.drop 1).takeWhile (· = 's')).length) false
    else
      c :: clampAux s (c = '\n')
termination_by s _ => s.length
decreasing_by
  · show ((rest.drop 1).drop ((rest.drop 1).takeWhile (· = 's')).length).length <
      (c :: s).length
    have hk5 : 5 ≤ k := h.2.1
    have h1 : rest.length = s.length + 1 - k := by
      have hr : rest = (c :: s).drop k := rfl
      rw [hr, List.length_drop]; simp
    have h2 : ((rest.drop 1).drop ((rest.drop 1).takeWhile (· = 's')).length).length =
        (rest.drop 1).length - ((rest.drop 1).takeWhile (· = 's')).length :=
      List.length_drop _ _
    have h3 : (rest.drop 1).length = rest.length - 1 := List.length_drop _ _
    simp only [List.length_cons]
    omega
  · simp

/-- Scanner for `replace(/\\n{3,}/g, '\\n\\n')` — literal: one
backslash followed by a (maximal) run of three or more `n` letters
becomes the four characters backslash-`n`-backslash-`n`. -/
def collapseAux : Str → Str
  | [] => []
  | c :: s =>
    if c = '\\' then
      let t := s.takeWhile (· = 'n')
      if 3 ≤ t.length then str "\\n\\n" ++ collapseAux (s.drop t.length)
      else c :: collapseAux s
    else c :: collapseAux s
termination_by s => s.length
decreasing_by
  · simp only [List.length_drop, List.length_cons]; omega
  · simp
  · simp

/-- Heading-depth "clamp" of `LLMOptimizer.simplifyStructure`
(`replace(/^#{5,}\\s+/gm, '#### ')`, with the literal backslash). -/
def clampHeadings (s : Str) : Str := clampAux s true

/-- Blank-line "collapse" of `LLMOptimizer.removeRedundancy`
(`replace(/\\n{3,}/g, '\\n\\n')`, with the literal backslash), also
used by `SphinxConverter.postProcess`. -/
def collapseBlankLines (s : Str) : Str := collapseAux s

/-- The cleanup transforms of `optimize`, in the order `optimize`
applies them (`simplifyStructure`, then `removeRedundancy`). -/
def cleanupPass (s : Str) : Str := collapseBlankLines (clampHeadings s)

/-- Invariant checker for the heading rewrite: `true` iff scanning `s`
with initial line-start flag `atStart` finds no position at which the
literal pattern `^#{5,}\\s+` matches (so `clampAux` is the identity
there).  Same guard as `clampAux`, but structurally recursive. -/
def clampFreeB : Str → Bool → Bool
  | [], _ => true
  | c :: s, atStart =>
    let k := ((c :: s).takeWhile (· = '#')).length
    let rest := (c :: s).drop k
    if atStart ∧ 5 ≤ k ∧ isLead ['\\'] rest ∧ (rest.drop 1).takeWhile (· = 's') ≠ [] then
      false
    else clampFreeB s (c = '\n')

/-!
`SphinxConverter` (`src/utils/file-handler.ts`): pre-processing,
structural parsing, Markdown rendering and post-processing.

The global JavaScript `String.replace` calls are modelled by a generic
left-to-right scanner `scanRewrite att`: at every position, `att`
either matches (returning the replacement text and the remaining input
after the match) or the scanner copies one character and advances, as
the regex engine does.  None of the modelled patterns can match the
empty string, so every match consumes at least one character; the
scanner checks this to stay structurally terminating (for the `att`
functions below the check always succeeds).
-/

/-- Generic left-to-right replace-all scanner. -/
def scanRewrite (att : Str → Option (Str × Str)) : Str → Str
  | [] => []
  | c :: s =>
    match att (c :: s) with
    | some (rep, r) =>
        if h : r.length < s.length + 1 then rep ++ scanRewrite att r
        else c :: scanRewrite att s
    | none => c :: scanRewrite att s
termination_by s => s.length
decreasing_by
  all_goals simp only [List.length_cons] at *
  all_goals omega

/-- Lazy `(.*?)(?=\n\S|\n$)` search (with dotall `.`): the shortest
piece `C` such that the following input starts with a newline followed
by either a non-whitespace character or the end of the input.  Returns
`(C, tail)` where the remaining input (not consumed by the match, as
the lookahead is zero-width) is `'\n' :: tail`. -/
def findLazy : Str → Option (Str × Str)
  | [] => none
  | c :: rest =>
    if c = '\n' ∧ (rest = [] ∨ ¬ isWs (rest.headD ' ')) then some ([], rest)
    else
      match findLazy rest with
      | none => none
      | some (C, tl) => some (c :: C, tl)

/-- Suffixes of `w` that follow a `'\n'`, in left-to-right order. -/
def nlSuffixes : Str → List Str
  | [] => []
  | c :: s => (if c = '\n' then [s] else []) ++ nlSuffixes s

/-- The `\s*\n` part of the directive-block regexes: `\s*` greedily eats
the maximal whitespace run and backtracks, so the candidate resumption
points are the positions after each `'\n'` of the run, preferring the
latest.  Each candidate is the rest of the run after that newline,
followed by the input after the run. -/
def wsNLCandidates (rest : Str) : List Str :=
  let W := rest.takeWhile isWs
  let R := rest.drop W.length
  (nlSuffixes W).reverse.map (· ++ R)

/-- Try `findLazy` at each backtracking candidate, preferring the
earliest listed. -/
def tryCandidates : List Str → Option (Str × Str)
  | [] => none
  | r :: rs =>
    match findLazy r with
    | some p => some p
    | none => tryCandidates rs

/-- Head match of a directive-block regex
`\.\. name::\s*\n(.*?)(?=\n\S|\n$)` (flags `gs`).  Returns the captured
body `C` and the remaining input `'\n' :: tail` at the lookahead. -/
def dirBlockMatch (name : Str) (s : Str) : Option (Str × Str) :=
  let key := str ".. " ++ name ++ str "::"
  if isLead key s then
    match tryCandidates (wsNLCandidates (s.drop key.length)) with
    | some (C, tl) => some (C, '\n' :: tl)
    | none => none
  else none

/-- The inner `replace(/\\n/g, '\\n> ')` of the admonition rewrite —
the doubled backslashes are literal: each two-character backslash-`n`
pair becomes backslash-`n`-`>`-space; real newlines are untouched. -/
def nlToQuote : Str → Str
  | '\\' :: 'n' :: s => '\\' :: 'n' :: '>' :: ' ' :: nlToQuote s
  | c :: s => c :: nlToQuote s
  | [] => []

/-- Match attempt for the toctree rule of `preprocessRST`:
`\.\. toctree::\s*\n(.*?)(?=\n\S|\n$)` (a real-escape pattern), whose
replacement template however emits the literal two-character sequence
`\n` (the template's `\\n` is literal). -/
def toctreeAtt (s : Str) : Option (Str × Str) :=
  match dirBlockMatch (str "toctree") s with
  | some (C, r) =>
      some (str "<!-- TOCTREE:" ++ '\\' :: 'n' :: trimStr C ++ '\\' :: 'n' :: str "-->"
              ++ ['\\', 'n'], r)
  | none => none

/-- The admonition types of `preprocessRST` with their upper-cased names
and emoji (`note` last, as the emoji selection defaults to the info
mark). -/
def admTypes : List (Str × Str × Str) :=
  [ (str "note", str "NOTE", str "ℹ️")
  , (str "warning", str "WARNING", str "⚠️")
  , (str "tip", str "TIP", str "💡")
  , (str "important", str "IMPORTANT", str "❗") ]

/-- First admonition alternative whose directive opener matches at the
head of `s` (the regex alternation tries them in order). -/
def admFind : List (Str × Str × Str) → Str → Option (Str × Str × Str)
  | [], _ => none
  | t :: ts, s => if isLead (str ".. " ++ t.1 ++ str "::") s then some t else admFind ts s

/-- Match attempt for the admonition rule of `preprocessRST`:
`\.\. (note|warning|tip|important)::\s*\n(.*?)(?=\n\S|\n$)` (a
real-escape pattern), whose replacement template emits the literal
two-character sequence `\n` wherever it means a line break (the
template's `\\n` is literal), so the "blockquote" comes out on a
single real line. -/
def admAtt (s : Str) : Option (Str × Str) :=
  match admFind admTypes s with
  | some t =>
    match dirBlockMatch t.1 s with
    | some (C, r) =>
        some (str "> " ++ t.2.2 ++ str " **" ++ t.2.1 ++ str "**"
                ++ '\\' :: 'n' :: '>' :: '\\' :: 'n' :: '>' :: ' ' ::
                  nlToQuote (trimStr C) ++ ['\\', 'n'], r)
    | none => none
  | none => none

/-- Match attempt for `\.\. automodule::\s*(.+)` (and the analogous
autoclass rule): `\s*` may cross newlines, and when everything after the
opener is whitespace, backtracking lets `(.+)` capture the trailing
non-newline whitespace. -/
def autoAtt (name : Str) (rep : Str) (s : Str) : Option (Str × Str) :=
  let key := str ".. " ++ name ++ str "::"
  if isLead key s then
    let rest := s.drop key.length
    let W := rest.takeWhile isWs
    let L := (rest.drop W.length).takeWhile (· ≠ '\n')
    if L ≠ [] then
      some (str "<!-- " ++ rep ++ str ": " ++ L ++ str " -->",
            rest.drop (W.length + L.length))
    else
      let B := (W.reverse.takeWhile (· ≠ '\n')).reverse
      if B ≠ [] then some (str "<!-- " ++ rep ++ str ": " ++ B ++ str " -->", [])
      else none
  else none

/-- Toctree rewrite of `SphinxConverter.preprocessRST`. -/
def toctreeRule (s : Str) : Str := scanRewrite toctreeAtt s

/-- Automodule rewrite of `SphinxConverter.preprocessRST`. -/
def automoduleRule (s : Str) : Str :=
  scanRewrite (autoAtt (str "automodule") (str "AUTO-MODULE")) s

/-- Autoclass rewrite of `SphinxConverter.preprocessRST`. -/
def autoclassRule (s : Str) : Str :=
  scanRewrite (autoAtt (str "autoclass") (str "AUTO-CLASS")) s

/-- Admonition rewrite of `SphinxConverter.preprocessRST`. -/
def admonitionRule (s : Str) : Str := scanRewrite admAtt s

/-- `SphinxConverter.preprocessRST`: the pre-processing pass that runs
before structural parsing (toctree, automodule, autoclass, then
admonitions). -/
def preprocessRST (content : Str) : Str :=
  admonitionRule (autoclassRule (automoduleRule (toctreeRule content)))

/-- `SphinxConverter.isUnderline`: a non-blank line whose trimmed text
repeats one character drawn from the fixed underline alphabet. -/
def isUnderline (line : Str) : Bool :=
  match trimStr line with
  | [] => false
  | c :: cs => (c :: cs).all (· = c) && (str "=-~^\"'`.+*#<>_").contains c

/-- `SphinxConverter.getHeaderLevel`: fixed lookup table for the
underline character, defaulting to level 2. -/
def getHeaderLevel (c : Char) : Nat :=
  if c = '=' then 1
  else if c = '-' then 2
  else if c = '~' then 3
  else if c = '^' then 4
  else if c = '"' then 5
  else if c = '\'' then 6
  else 2

/-- Character class `[a-zA-Z-]` of the directive regexes. -/
def isAlphaDash (c : Char) : Bool :=
  ('a' ≤ c && c ≤ 'z') || ('A' ≤ c && c ≤ 'Z') || c = '-'

/-- The parser's directive-open test `^\\.\\. [a-zA-Z-]+::` — the
doubled backslashes are literal: a backslash, any character, another
backslash, any character, a space, then the directive name and `::`.
An ordinary `.. name::` line never matches. -/
def isDirectiveOpen (line : Str) : Bool :=
  match line with
  | '\\' :: a :: '\\' :: b :: ' ' :: rest =>
    isDotChar a && isDotChar b &&
      (let nm := rest.takeWhile isAlphaDash
       nm ≠ [] && isLead (str "::") (rest.drop nm.length))
  | _ => false

/-- Full directive-open match `^\\.\\. ([a-zA-Z-]+)::\\s*(.*)` of
`parseDirective` — literal: backslash, any char, backslash, any char,
space, the name, `::`, then one more literal backslash, a run of `s`
letters, and the `(.*)` argument capture (up to the next real line
terminator). -/
def dirOpenMatch (line : Str) : Option (Str × Str) :=
  match line with
  | '\\' :: a :: '\\' :: b :: ' ' :: rest =>
    let nm := rest.takeWhile isAlphaDash
    if isDotChar a && isDotChar b &&
        (nm ≠ [] && isLead (str "::") (rest.drop nm.length)) then
      match rest.drop (nm.length + 2) with
      | '\\' :: r3 =>
          some (nm, (r3.drop (r3.takeWhile (· = 's')).length).takeWhile isDotChar)
      | _ => none
    else none
  | _ => none

/-- An RST directive record (`RSTDirective` of `file-handler.ts`);
`options` models the JavaScript object as an insertion-ordered
association list. -/
structure RSTDirective where
  name : Str
  arguments : List Str
  options : List (Str × Str)
  content : List Str
deriving Repr, DecidableEq

/-- The empty directive returned when the open line fails to re-match. -/
def emptyDirective : RSTDirective := ⟨[], [], [], []⟩

/-- JavaScript object assignment `options[key] = value`: overwrite an
existing key in place, otherwise append. -/
def setOpt : List (Str × Str) → Str → Str → List (Str × Str)
  | [], k, v => [(k, v)]
  | (k', v') :: os, k, v =>
    if k' = k then (k, v) :: os else (k', v') :: setOpt os k v

/-- The option-line test `^\\s*:[a-zA-Z-]+:` of `parseDirective` —
literal: a backslash, a run of `s` letters, then `:name:`. -/
def isOptionLine (l : Str) : Bool :=
  match l with
  | '\\' :: r =>
    match r.drop (r.takeWhile (· = 's')).length with
    | ':' :: r2 =>
      let k := r2.takeWhile isAlphaDash
      k ≠ [] && isLead [':'] (r2.drop k.length)
    | _ => false
  | _ => false

/-- Key and value of an option line (`^\\s*:([a-zA-Z-]+):\\s*(.*)`) —
literal: the second `\\s*` again needs a literal backslash after the
closing colon, so this match (and hence the recorded option) can fail
even on a line that passes `isOptionLine`; the source guards the
assignment with `if (optionMatch)`. -/
def optionKV (l : Str) : Option (Str × Str) :=
  match l with
  | '\\' :: r =>
    match r.drop (r.takeWhile (· = 's')).length with
    | ':' :: r2 =>
      let k := r2.takeWhile isAlphaDash
      if k ≠ [] && isLead [':'] (r2.drop k.length) then
        match r2.drop (k.length + 1) with
        | '\\' :: r4 =>
            some (k, (r4.drop (r4.takeWhile (· = 's')).length).takeWhile isDotChar)
        | _ => none
      else none
    | _ => none
  | _ => none

/-- Option-parsing loop of `parseDirective`: consume consecutive option
lines, returning the collected options and the remaining lines. -/
def parseOptionsAux : List Str → List (Str × Str) → List (Str × Str) × List Str
  | [], opts => (opts, [])
  | l :: ls, opts =>
    if isOptionLine l then
      parseOptionsAux ls (match optionKV l with
        | some kv => setOpt opts kv.1 kv.2
        | none => opts)
    else (opts, l :: ls)

/-- Content-parsing loop of `parseDirective`: consume lines that are
blank or indented by three spaces; indented lines lose the indent,
blank lines become empty strings. -/
def parseContentAux : List Str → List Str → List Str × List Str
  | [], acc => (acc, [])
  | l :: ls, acc =>
    if isLead (str "   ") l || trimStr l = [] then
      parseContentAux ls (acc ++ [if trimStr l ≠ [] then l.drop 3 else []])
    else (acc, l :: ls)

/-- `SphinxConverter.parseDirective`, phrased on the directive-open line
and the following lines: returns the directive and the lines after the
consumed block (the open line itself is always consumed, so the source's
`nextIndex` is at least `startIndex + 1`). -/
def parseDirective (line : Str) (rest : List Str) : RSTDirective × List Str :=
  match dirOpenMatch line with
  | none => (emptyDirective, rest)
  | some (nm, arg) =>
    let po := parseOptionsAux rest []
    let afterBlank :=
      match po.2 with
      | l :: ls => if trimStr l = [] then ls else l :: ls
      | [] => []
    let pc := parseContentAux afterBlank []
    (⟨nm, if arg = [] then [] else [arg], po.1, pc.1⟩, pc.2)

/-- A parsed section (`parseRST`'s section objects). -/
structure PSection where
  title : Str
  level : Nat
  content : Str
  lineStart : Nat
deriving Repr, DecidableEq

/-- The parse result of `SphinxConverter.parseRST`. -/
structure RSTDocument where
  title : Str
  sections : List PSection
  directives : List RSTDirective
  content : Str
deriving Repr, DecidableEq

/-- Scan loop of `SphinxConverter.parseRST`: single forward cursor over
the line list (`i` is the cursor index in the original line array, kept
for the sections' `lineStart` field).  A line with an underline
successor opens a section (or sets the document title); a
directive-open line is delegated to `parseDirective`; other lines are
appended to the current section's content, or dropped when no section
is open. -/
def parseLinesAux : List Str → Nat → Str → List PSection → Option PSection →
    List RSTDirective → Str × List PSection × List RSTDirective
  | [], _, title, done, cur, dirs => (title, done ++ cur.toList, dirs)
  | line :: rest, i, title, done, cur, dirs =>
    if hHdr : rest ≠ [] ∧ isUnderline (rest.headD []) ∧ trimStr line ≠ [] then
      let next := rest.headD []
      let lvl := getHeaderLevel (next.headD ' ')
      if title = [] ∧ lvl = 1 then
        parseLinesAux (rest.drop 1) (i + 2) (trimStr line) done cur dirs
      else
        parseLinesAux (rest.drop 1) (i + 2) title (done ++ cur.toList)
          (some ⟨trimStr line, lvl, [], i⟩) dirs
    else
      if isDirectiveOpen line then
        if h : (parseDirective line rest).2.length ≤ rest.length then
          parseLinesAux (parseDirective line rest).2
            (i + 1 + (rest.length - (parseDirective line rest).2.length)) title done cur
            (dirs ++ [(parseDirective line rest).1])
        else
          parseLinesAux rest (i + 1) title done cur (dirs ++ [(parseDirective line rest).1])
      else
        match cur with
        | some c =>
            parseLinesAux rest (i + 1) title done
              (some { c with content := c.content ++ line ++ ['\\', 'n'] }) dirs
        | none => parseLinesAux rest (i + 1) title done cur dirs
termination_by lines _ _ _ _ _ => lines.length
decreasing_by
  all_goals simp only [List.length_drop, List.length_cons] at *
  all_goals omega

/-- `SphinxConverter.parseRST`: parse markup text into a document.  The
"lines" come from `content.split('\\n')` — a split at the literal
two-character sequence backslash-`n`, not at real newlines — and
content lines are re-joined with the same literal sequence
(`+= line + '\\n'`). -/
def parseRST (content : Str) : RSTDocument :=
  let r := parseLinesAux (splitBN content) 0 [] [] none []
  ⟨r.1, r.2.1, r.2.2, content⟩

/-- `ConversionOptions` of `file-handler.ts`; only `preserveReferences`
is consulted by the conversion functions modelled here. -/
structure ConversionOptions where
  preserveReferences : Bool
deriving Repr, DecidableEq

/-- The `([^*]+)` capture of the literal strong/emphasis patterns:
the `\\*` atoms (each one quantified escaped backslash) greedily
consume the run's leading backslashes before the capture starts, so
the capture is the asterisk-free run minus its leading backslashes —
except that a run consisting only of backslashes captures its last
backslash (the `+` must take at least one character, forcing one step
of backtracking). -/
def bsCapture (R : Str) : Str :=
  if R.dropWhile (· = '\\') = [] then ['\\'] else R.dropWhile (· = '\\')

/-- Generic scanner for the literal strong/emphasis rewrites: in
`/\\*\\*([^*]+)\\*\\*/` every `\\*` is an escaped backslash quantified
by `*` (zero or more backslashes), so a match is possible at every
maximal asterisk-free run, which is replaced by
`pre ++ capture ++ post`; asterisks between runs are copied. -/
def starRewrite (pre post : Str) : Str → Str
  | [] => []
  | c :: s =>
    if c = '*' then c :: starRewrite pre post s
    else
      pre ++ bsCapture ((c :: s).takeWhile (· ≠ '*')) ++ post
        ++ starRewrite pre post ((c :: s).drop ((c :: s).takeWhile (· ≠ '*')).length)
termination_by s => s.length
decreasing_by
  · simp
  · rename_i h
    show (((c :: s).drop ((c :: s).takeWhile (· ≠ '*')).length)).length < (c :: s).length
    have h1 : ((c :: s).takeWhile (· ≠ '*')).length ≥ 1 := by
      rw [List.takeWhile_cons, if_pos (by simp [h])]
      simp
    have h2 : (((c :: s).drop ((c :: s).takeWhile (· ≠ '*')).length)).length =
        (c :: s).length - ((c :: s).takeWhile (· ≠ '*')).length := List.length_drop _ _
    simp only [List.length_cons] at *
    omega

/-- Strong rewrite `replace(/\\*\\*([^*]+)\\*\\*/g, '**$1**')` — the
doubled backslashes are literal, so (far from being an identity) every
maximal asterisk-free run is wrapped in `**`. -/
def strongRule (s : Str) : Str := starRewrite (str "**") (str "**") s

/-- Emphasis rewrite `replace(/\\*([^*]+)\\*/g, '*$1*')` — literal:
every maximal asterisk-free run is wrapped in `*`. -/
def emphasisRule (s : Str) : Str := starRewrite ['*'] ['*'] s

/-- Match attempt for the inline-code rewrite
``replace(/``([^`]+)``/g, '`$1`')``. -/
def inlineCodeAtt (s : Str) : Option (Str × Str) :=
  if isLead (str "``") s then
    let r := s.drop 2
    let t := r.takeWhile (· ≠ '`')
    if t ≠ [] && isLead (str "``") (r.drop t.length) then
      some ('`' :: t ++ ['`'], r.drop (t.length + 2))
    else none
  else none

/-- Inline-code rewrite of `convertContentToMarkdown`. -/
def inlineCodeRule (s : Str) : Str := scanRewrite inlineCodeAtt s

/-- Code-block rewrite `replace(/::$\\n\\n((?:\\s{4,}.*\\n?)*)/gm, ...)`
— the doubled backslashes are literal: after `::` the pattern asserts
`$` (end of line) and then requires a literal backslash character at
that very position.  `$` holds only at the end of the input (where no
character follows) or immediately before a real newline (where the
character is `'\n'`, not a backslash), so the pattern is unsatisfiable
and the rewrite is the identity on every input. -/
def codeBlockRule (s : Str) : Str := s

/-- Bullet-list rewrite `replace(/^\\s*\\*\\s+(.+)$/gm, '- $1')`,
applied line by line (`m` flag, real lines) — the doubled backslashes
are literal: a backslash, a run of `s` letters, a non-empty run of
backslashes (the `\\*` atom then the `\\` atom), a non-empty run of
`s`, then the `(.+)` capture, which must reach the end of the line
(`$`); when nothing follows the final `s`-run, backtracking makes the
capture its last `s`.  A line without backslashes never matches. -/
def bulletLine (l : Str) : Str :=
  match l with
  | '\\' :: r =>
    let r2 := r.drop (r.takeWhile (· = 's')).length
    let bs := r2.takeWhile (· = '\\')
    if bs = [] then l
    else
      let r3 := r2.drop bs.length
      let w := (r3.takeWhile (· = 's')).length
      if w = 0 then l
      else
        let cap := r3.drop w
        if cap ≠ [] then (if cap.all isDotChar then str "- " ++ cap else l)
        else if 2 ≤ w then str "- " ++ ['s']
        else l
  | _ => l

/-- Bullet-list rewrite of `convertContentToMarkdown`. -/
def bulletRule (s : Str) : Str :=
  List.intercalate ['\n'] ((splitOnChar '\n' s).map bulletLine)

/-- Numbered-list rewrite `replace(/^\\s*(\\d+)\\.\\s+(.+)$/gm,
'$1. $2')`, applied line by line — literal: a backslash, a run of `s`,
the capture `(\\d+)` (a backslash then a run of `d` letters), `\\.` (a
backslash then any character), `\\s+` (a backslash then a non-empty
`s`-run), then the `(.+)` capture to the end of the line.  `$1` keeps
its backslash.  A line without backslashes never matches. -/
def numberedLine (l : Str) : Str :=
  match l with
  | '\\' :: r =>
    match r.drop (r.takeWhile (· = 's')).length with
    | '\\' :: r3 =>
      let d := r3.takeWhile (· = 'd')
      if d = [] then l
      else
        match r3.drop d.length with
        | '\\' :: x :: '\\' :: r6 =>
          if isDotChar x then
            let w := (r6.takeWhile (· = 's')).length
            if w = 0 then l
            else
              let cap := r6.drop w
              if cap ≠ [] then
                (if cap.all isDotChar then '\\' :: d ++ str ". " ++ cap else l)
              else if 2 ≤ w then '\\' :: d ++ str ". " ++ ['s']
              else l
          else l
        | _ => l
    | _ => l
  | _ => l

/-- Numbered-list rewrite of `convertContentToMarkdown`. -/
def numberedRule (s : Str) : Str :=
  List.intercalate ['\n'] ((splitOnChar '\n' s).map numberedLine)

/-- Match attempt for the intra-document reference rewrite
``replace(/:doc:`([^`]+)`/g, ...)``: the whole backtick-quoted text is
the captured reference; with `preserveReferences` it becomes
`[ref](ref.md)`, otherwise the bare text. -/
def docAtt (preserve : Bool) (s : Str) : Option (Str × Str) :=
  if isLead (str ":doc:`") s then
    let r := s.drop 6
    let t := r.takeWhile (· ≠ '`')
    if t ≠ [] && isLead ['`'] (r.drop t.length) then
      some ((if preserve then '[' :: t ++ str "](" ++ t ++ str ".md)" else t),
            r.drop (t.length + 1))
    else none
  else none

/-- Intra-document reference rewrite of `convertContentToMarkdown`. -/
def docRule (preserve : Bool) (s : Str) : Str := scanRewrite (docAtt preserve) s

/-- Match attempt for the external-link rewrite
``replace(/`([^<]+)<([^>]+)>`_/g, '[$1]($2)')``. -/
def extLinkAtt (s : Str) : Option (Str × Str) :=
  if isLead ['`'] s then
    let r := s.drop 1
    let a := r.takeWhile (· ≠ '<')
    if a = [] then none
    else
      match r.drop a.length with
      | '<' :: r2 =>
        let b := r2.takeWhile (· ≠ '>')
        if b = [] then none
        else
          match r2.drop b.length with
          | '>' :: '`' :: '_' :: r3 => some ('[' :: a ++ str "](" ++ b ++ [')'], r3)
          | _ => none
      | _ => none
  else none

/-- External-link rewrite of `convertContentToMarkdown`. -/
def extLinkRule (s : Str) : Str := scanRewrite extLinkAtt s

/-- `ref.toLowerCase().replace(/\\s+/g, '-')`: the anchor slug of an
internal reference — literal: each backslash-plus-`s`-run match becomes
a dash; real whitespace is untouched. -/
def wsRunsToDash : Str → Str
  | [] => []
  | c :: s =>
    if h : c = '\\' ∧ s.takeWhile (· = 's') ≠ [] then
      '-' :: wsRunsToDash (s.drop (s.takeWhile (· = 's')).length)
    else c :: wsRunsToDash s
termination_by s => s.length
decreasing_by
  · have hd : (s.drop (s.takeWhile (· = 's')).length).length ≤ s.length := by
      rw [List.length_drop]
      omega
    simp only [List.length_cons]
    omega
  · simp

/-- Match attempt for the internal-reference rewrite
``replace(/:ref:`([^`]+)`/g, ...)``. -/
def refAtt (preserve : Bool) (s : Str) : Option (Str × Str) :=
  if isLead (str ":ref:`") s then
    let r := s.drop 6
    let t := r.takeWhile (· ≠ '`')
    if t ≠ [] && isLead ['`'] (r.drop t.length) then
      some ((if preserve then
               '[' :: t ++ str "](#" ++ wsRunsToDash (t.map Char.toLower) ++ [')']
             else t),
            r.drop (t.length + 1))
    else none
  else none

/-- Internal-reference rewrite of `convertContentToMarkdown`. -/
def refRule (preserve : Bool) (s : Str) : Str := scanRewrite (refAtt preserve) s

/-- `SphinxConverter.convertContentToMarkdown`: the fixed, ordered
sequence of text substitutions applied to a section's content, followed
by the final `trim`. -/
def convertContentToMarkdown (content : Str) (options : ConversionOptions) : Str :=
  trimStr (refRule options.preserveReferences
    (extLinkRule
      (docRule options.preserveReferences
        (numberedRule
          (bulletRule
            (codeBlockRule
              (inlineCodeRule
                (emphasisRule
                  (strongRule content)))))))))

/-- Section-rendering loop of `convertParsedToMarkdown`: each section's
heading depth is its level, plus one when a document title exists. -/
def renderSections : List PSection → Bool → ConversionOptions → Str
  | [], _, _ => []
  | sec :: ss, hasTitle, o =>
    List.replicate (sec.level + (if hasTitle then 1 else 0)) '#'
      ++ ' ' :: sec.title ++ str "\n\n"
      ++ convertContentToMarkdown sec.content o ++ str "\n\n"
      ++ renderSections ss hasTitle o

/-- `SphinxConverter.convertParsedToMarkdown`: emit the document title
(when present) as a level-1 heading, then every section in order. -/
def convertParsedToMarkdown (doc : RSTDocument) (options : ConversionOptions) : Str :=
  (if doc.title ≠ [] then str "# " ++ doc.title ++ str "\n\n" else [])
    ++ renderSections doc.sections (doc.title ≠ []) options

/-- The heading-spacing test `^(#{1,6}\\s+.+)$` of `postProcess` —
literal: 1–6 `#`, a backslash, a non-empty `s`-run, then `(.+)` which
must reach the end of the line (`$`); with nothing after the `s`-run,
backtracking makes `.+` take the last `s`. -/
def hdrSpaceB (l : Str) : Bool :=
  let k := (l.takeWhile (· = '#')).length
  if 1 ≤ k ∧ k ≤ 6 then
    match l.drop k with
    | '\\' :: r2 =>
      let w := (r2.takeWhile (· = 's')).length
      if w = 0 then false
      else
        let cap := r2.drop w
        (cap ≠ [] && cap.all isDotChar) || (cap = [] && 2 ≤ w)
    | _ => false
  else false

/-- `SphinxConverter.postProcess` — with the literal escapes: collapse
the literal `\n{3,}` pattern (`collapseBlankLines`); per real line, a
line matching the literal heading pattern is surrounded with literal
`\n` sequences (`'\\n$1\\n'`); per real line, strip a trailing run of
spaces, backslashes and `t` letters (the class `[ \\t]` contains the
space, the backslash and the letter `t`); finally trim. -/
def postProcess (markdown : Str) : Str :=
  let p1 := collapseBlankLines markdown
  let p2 := List.intercalate ['\n']
    ((splitOnChar '\n' p1).map (fun l =>
      if hdrSpaceB l then '\\' :: 'n' :: l ++ ['\\', 'n'] else l))
  let p3 := List.intercalate ['\n']
    ((splitOnChar '\n' p2).map (fun l =>
      (l.reverse.dropWhile (fun c => c = ' ' || c = '\\' || c = 't')).reverse))
  trimStr p3

/-- `SphinxConverter.convertToMarkdown`: pre-process, parse, render,
post-process — the pre-processing rewrite pass runs before structural
parsing by construction. -/
def convertToMarkdown (content : Str) (options : ConversionOptions) : Str :=
  postProcess (convertParsedToMarkdown (parseRST (preprocessRST content)) options)

/-!
Generic lemmas about the string model.
-/

theorem isLead_append (t r : Str) : isLead t (t ++ r) = true := by
  induction t with
  | nil => simp [isLead]
  | cons a as ih => simpa [isLead] using ih

theorem isLead_append_of {t s : Str} (r : Str) (h : isLead t s = true) :
    isLead t (s ++ r) = true := by
  induction t generalizing s with
  | nil => simp [isLead]
  | cons a as ih =>
    cases s with
    | nil => simp [isLead] at h
    | cons b bs =>
      simp only [isLead, Bool.and_eq_true, decide_eq_true_eq] at h
      simpa [isLead, h.1] using ih h.2

theorem containsSub_of_isLead {s t : Str} (h : isLead t s = true) :
    containsSub s t = true := by
  cases s <;> simp [containsSub, h] at h ⊢ <;> simp [h]

theorem containsSub_cons_of (c : Char) {s t : Str} (h : containsSub s t = true) :
    containsSub (c :: s) t = true := by
  simp [containsSub, h]

theorem containsSub_append_right (a : Str) {b t : Str} (h : containsSub b t = true) :
    containsSub (a ++ b) t = true := by
  induction a with
  | nil => simpa using h
  | cons c cs ih => simpa using containsSub_cons_of c ih

theorem containsSub_append_left {a : Str} (b : Str) {t : Str} (h : containsSub a t = true) :
    containsSub (a ++ b) t = true := by
  induction a with
  | nil =>
    cases t with
    | nil => exact containsSub_of_isLead (by simp [isLead])
    | cons x xs => simp [containsSub, isLead] at h
  | cons c cs ih =>
    rw [containsSub] at h
    rcases Bool.or_eq_true_iff.mp h with h1 | h2
    · exact containsSub_of_isLead (isLead_append_of b h1)
    · exact containsSub_cons_of c (ih h2)

theorem dropWhile_eq_self_of_head {p : Char → Bool} {l : Str}
    (h : l = [] ∨ p (l.headD ' ') = false) : l.dropWhile p = l := by
  cases l with
  | nil => rfl
  | cons c cs =>
    rcases h with h | h
    · simp at h
    · simp only [List.headD_cons] at h
      simp [List.dropWhile, h]

theorem headD_reverse (l : Str) (d : Char) : l.reverse.headD d = l.getLastD d := by
  rcases List.eq_nil_or_concat l with h | ⟨as, a, h⟩ <;> subst h <;> simp

theorem trimStr_eq_self {l : Str} (h1 : l = [] ∨ isWs (l.headD ' ') = false)
    (h2 : l = [] ∨ isWs (l.getLastD ' ') = false) : trimStr l = l := by
  unfold trimStr
  rw [dropWhile_eq_self_of_head h1]
  rw [dropWhile_eq_self_of_head (by
    rcases h2 with h2 | h2
    · subst h2; left; rfl
    · right; rw [headD_reverse]; exact h2)]
  exact List.reverse_reverse l

/-!
C3: the header-underline-to-level mapping.
-/

/-- C3.  The underline-character-to-level mapping is a fixed function of
the character alone: `'='` yields level 1, `'-'` level 2, `'~'` level 3,
and every character outside the lookup table yields the default level 2
(the remaining table entries are `'^' ↦ 4`, `'"' ↦ 5`, `'\'' ↦ 6`). -/
theorem c3_header_level_mapping (c : Char)
    (h : c ∉ ['=', '-', '~', '^', '"', '\'']) :
    getHeaderLevel '=' = 1 ∧ getHeaderLevel '-' = 2 ∧ getHeaderLevel '~' = 3 ∧
      getHeaderLevel c = 2 := by
  refine ⟨rfl, rfl, rfl, ?_⟩
  simp only [List.mem_cons, List.not_mem_nil, or_false, not_or] at h
  obtain ⟨h1, h2, h3, h4, h5, h6⟩ := h
  simp [getHeaderLevel, h1, h2, h3, h4, h5, h6]

/-- Witness for C3 at the unrecognized underline character `'+'`. -/
theorem c3_header_level_mapping_witness :
    '+' ∉ ['=', '-', '~', '^', '"', '\''] ∧
      (getHeaderLevel '=' = 1 ∧ getHeaderLevel '-' = 2 ∧ getHeaderLevel '~' = 3 ∧
        getHeaderLevel '+' = 2) :=
  ⟨by decide, c3_header_level_mapping '+' (by decide)⟩

/-!
C10: the directive extractor always advances the cursor.
-/

theorem parseOptionsAux_suffix (ls : List Str) (opts : List (Str × Str)) :
    ∃ k, (parseOptionsAux ls opts).2 = ls.drop k := by
  induction ls generalizing opts with
  | nil => exact ⟨0, rfl⟩
  | cons l ls' ih =>
    by_cases h : isOptionLine l = true
    · obtain ⟨k, hk⟩ := ih (match optionKV l with
        | some kv => setOpt opts kv.1 kv.2
        | none => opts)
      exact ⟨k + 1, by simpa [parseOptionsAux, h] using hk⟩
    · exact ⟨0, by simp [parseOptionsAux, h]⟩

theorem parseContentAux_suffix (ls : List Str) (acc : List Str) :
    ∃ k, (parseContentAux ls acc).2 = ls.drop k := by
  induction ls generalizing acc with
  | nil => exact ⟨0, rfl⟩
  | cons l ls' ih =>
    by_cases h : (isLead (str "   ") l || decide (trimStr l = [])) = true
    · obtain ⟨k, hk⟩ :=
        ih (acc ++ [if trimStr l ≠ [] then l.drop 3 else []])
      refine ⟨k + 1, ?_⟩
      rw [parseContentAux]
      simp only [Bool.or_eq_true, decide_eq_true_eq] at h
      simpa [h] using hk
    · refine ⟨0, ?_⟩
      rw [parseContentAux]
      simp only [Bool.or_eq_true, decide_eq_true_eq, not_or] at h
      simp [h.1, h.2]

theorem parseDirective_suffix (line : Str) (rest : List Str) :
    ∃ k, (parseDirective line rest).2 = rest.drop k := by
  unfold parseDirective
  cases hm : dirOpenMatch line with
  | none => exact ⟨0, rfl⟩
  | some p =>
    obtain ⟨k1, hk1⟩ := parseOptionsAux_suffix rest []
    set po := parseOptionsAux rest [] with hpo
    have hblank : ∃ k2, (match po.2 with
        | l :: ls => if trimStr l = [] then ls else l :: ls
        | [] => ([] : List Str)) = rest.drop k2 := by
      cases hc : po.2 with
      | nil => exact ⟨rest.length, by simp⟩
      | cons l ls =>
        by_cases hb : trimStr l = []
        · refine ⟨k1 + 1, ?_⟩
          have : rest.drop (k1 + 1) = (rest.drop k1).drop 1 := by
            rw [List.drop_drop]
          rw [this, ← hk1, hc]
          simp [hb]
        · exact ⟨k1, by rw [← hk1, hc]; simp [hb]⟩
    obtain ⟨k2, hk2⟩ := hblank
    obtain ⟨k3, hk3⟩ := parseContentAux_suffix (match po.2 with
        | l :: ls => if trimStr l = [] then ls else l :: ls
        | [] => ([] : List Str)) []
    refine ⟨k2 + k3, ?_⟩
    simp only
    rw [hk3, hk2, List.drop_drop]

/-- C10.  The directive extractor always advances the parse cursor: the
lines it returns are a suffix of the lines after the directive-open
line (the open line itself is always consumed), so the source's
`nextIndex = startIndex + 1 + (consumed lines)` is at least
`startIndex + 1`, every iteration of `parseRST`'s scan loop strictly
increases the cursor, and the loop reaches the end of the line array
(in this embedding `parseRST` is total by construction). -/
theorem c10_parse_directive_advances (line : Str) (rest : List Str) :
    (∃ k, (parseDirective line rest).2 = rest.drop k) ∧
      (parseDirective line rest).2.length ≤ rest.length := by
  obtain ⟨k, hk⟩ := parseDirective_suffix line rest
  exact ⟨⟨k, hk⟩, by rw [hk]; simpa using List.length_drop_le k rest⟩

/-!
C7: chunking the empty input.
-/

/-- Counterexample to C7 as stated: on the empty input string,
`chunkContent` does not return an empty sequence — it returns one chunk
(the implicit "Introduction" section created by `splitByHeaders`, whose
word count is 1 because JavaScript `"".trim().split(/\s+/)` is `[""]`). -/
theorem c7_counterexample :
    (chunkContent (str "") defaultOptions).length = 1 := by decide

/-- C7, amended.  On the empty input, `chunkContent` never throws and
returns a single chunk: id `chunk-1`, title `Introduction`, empty
content, word count 1, section metadata, and an empty context string
(for any options whose `chunkSize` is positive). -/
theorem c7_empty_input_single_chunk (opts : OptimizationOptions)
    (h : 1 ≤ opts.chunkSize) :
    chunkContent (str "") opts =
      [{ id := str "chunk-1"
         title := str "Introduction"
         content := []
         wordCount := 1
         metadata := { ChunkMetadata.empty with
                         sections := [str "Introduction"]
                         chunkType := some (str "section") }
         context := some [] }] := by
  have h2 : ¬ (opts.chunkSize < countWords []) := by
    have : countWords ([] : Str) = 1 := rfl
    omega
  simp only [chunkContent, splitByHeaders, str, String.toList]
  norm_num [splitOnChar, splitByHeadersAux, matchHeader, chunkContentAux, h2,
    newSectionChunk, addChunkContext, addChunkContextAux, mkChunkContext, str]
  decide

/-- Witness for the amended C7 at the default options. -/
theorem c7_empty_input_single_chunk_witness :
    1 ≤ defaultOptions.chunkSize ∧
      chunkContent (str "") defaultOptions =
        [{ id := str "chunk-1"
           title := str "Introduction"
           content := []
           wordCount := 1
           metadata := { ChunkMetadata.empty with
                           sections := [str "Introduction"]
                           chunkType := some (str "section") }
           context := some [] }] :=
  ⟨by decide, c7_empty_input_single_chunk defaultOptions (by decide)⟩

/-!
C4: heading depths emitted by the renderer.
-/

theorem convertContent_nil (o : ConversionOptions) :
    convertContentToMarkdown [] o = [] := by
  simp [convertContentToMarkdown, strongRule, emphasisRule, starRewrite, inlineCodeRule,
    codeBlockRule, bulletRule, numberedRule, docRule, extLinkRule, refRule, scanRewrite,
    trimStr, splitOnChar, List.intercalate, bulletLine, numberedLine, isWs]

/-- Counterexample to C4 as stated: the renderer does not clamp heading
depth to 6.  For a document with a title and a level-6 section, it emits
a depth-7 heading `####### S`, and no depth-6 heading line `###### S`
(preceded by a newline) appears. -/
theorem c4_counterexample :
    containsSub
        (convertParsedToMarkdown ⟨str "T", [⟨str "S", 6, [], 0⟩], [], []⟩ ⟨true⟩)
        (str "####### S") = true ∧
      containsSub
        (convertParsedToMarkdown ⟨str "T", [⟨str "S", 6, [], 0⟩], [], []⟩ ⟨true⟩)
        (str "\n###### S") = false := by
  have h := convertContent_nil (⟨true⟩ : ConversionOptions)
  constructor <;>
    · simp only [convertParsedToMarkdown, renderSections, h]
      decide

theorem renderSections_contains {sec : PSection} :
    ∀ (ss : List PSection) (b : Bool) (o : ConversionOptions), sec ∈ ss →
      containsSub (renderSections ss b o)
        (List.replicate (sec.level + (if b then 1 else 0)) '#' ++ ' ' :: sec.title) = true := by
  intro ss
  induction ss with
  | nil => intro b o hmem; simp at hmem
  | cons s0 tl ih =>
    intro b o hmem
    rcases List.mem_cons.mp hmem with h0 | htl
    · subst h0
      have hshape : renderSections (sec :: tl) b o =
          (List.replicate (sec.level + (if b then 1 else 0)) '#' ++ ' ' :: sec.title) ++
            (str "\n\n" ++ convertContentToMarkdown sec.content o ++ str "\n\n"
              ++ renderSections tl b o) := by
        simp [renderSections, List.append_assoc]
      rw [hshape]
      exact containsSub_of_isLead (isLead_append _ _)
    · have hshape : renderSections (s0 :: tl) b o =
          (List.replicate (s0.level + (if b then 1 else 0)) '#' ++ ' ' :: s0.title
              ++ str "\n\n" ++ convertContentToMarkdown s0.content o ++ str "\n\n") ++
            renderSections tl b o := by
        simp [renderSections, List.append_assoc]
      rw [hshape]
      exact containsSub_append_right _ (ih b o htl)

/-- C4, amended.  The renderer emits the document title (when present)
as a level-1 heading, and for each section a heading whose depth is
exactly `section.level`, plus 1 when a document title exists — with no
clamping: when a title is present and a section has level 6, the
emitted heading has depth 7 (see the counterexample). -/
theorem c4_render_heading_depths (doc : RSTDocument) (o : ConversionOptions)
    (sec : PSection) (hmem : sec ∈ doc.sections) :
    (doc.title ≠ [] →
        containsSub (convertParsedToMarkdown doc o) (str "# " ++ doc.title) = true) ∧
      containsSub (convertParsedToMarkdown doc o)
        (List.replicate (sec.level + (if doc.title = [] then 0 else 1)) '#'
          ++ ' ' :: sec.title) = true := by
  constructor
  · intro ht
    have hshape : convertParsedToMarkdown doc o =
        (str "# " ++ doc.title) ++
          (str "\n\n" ++ renderSections doc.sections (decide (doc.title ≠ [])) o) := by
      simp [convertParsedToMarkdown, ht, List.append_assoc]
    rw [hshape]
    exact containsSub_of_isLead (isLead_append _ _)
  · by_cases ht : doc.title = []
    · have hcont := renderSections_contains doc.sections false o hmem
      have hshape : convertParsedToMarkdown doc o = renderSections doc.sections false o := by
        simp [convertParsedToMarkdown, ht]
      rw [hshape]
      simpa [ht] using hcont
    · have hcont := renderSections_contains doc.sections true o hmem
      have hshape : convertParsedToMarkdown doc o =
          (str "# " ++ doc.title ++ str "\n\n") ++ renderSections doc.sections true o := by
        simp [convertParsedToMarkdown, ht, List.append_assoc]
      rw [hshape]
      refine containsSub_append_right _ ?_
      simpa [ht] using hcont

/-- Witness for the amended C4: a concrete document with a title and a
level-6 section. -/
theorem c4_render_heading_depths_witness :
    (⟨str "S", 6, [], 0⟩ : PSection) ∈
        (⟨str "T", [⟨str "S", 6, [], 0⟩], [], []⟩ : RSTDocument).sections ∧
      ((str "T" ≠ [] →
          containsSub
            (convertParsedToMarkdown ⟨str "T", [⟨str "S", 6, [], 0⟩], [], []⟩ ⟨true⟩)
            (str "# " ++ str "T") = true) ∧
        containsSub
          (convertParsedToMarkdown ⟨str "T", [⟨str "S", 6, [], 0⟩], [], []⟩ ⟨true⟩)
          (List.replicate (6 + (if (str "T" : Str) = [] then 0 else 1)) '#'
            ++ ' ' :: str "S") = true) :=
  ⟨by decide,
    c4_render_heading_depths ⟨str "T", [⟨str "S", 6, [], 0⟩], [], []⟩ ⟨true⟩
      ⟨str "S", 6, [], 0⟩ (by decide)⟩

/-!
C5: what the structural parser does with lines before the first header.
-/

/-- Counterexample to C5 as stated: for the input
`"hello\nTitle\n====="` (real newlines) the non-blank line `hello`
precedes what the spec regards as a header, yet `parseRST` creates no
section at all — no implicit "Introduction" section and not even the
`Title` section, because `content.split('\\n')` splits on the literal
two-character sequence backslash-n, so the whole input is a single
"line" that matches nothing; the leading text is simply dropped. -/
theorem c5_counterexample :
    trimStr (str "hello") ≠ [] ∧
      (parseRST (str "hello\nTitle\n=====")).title = [] ∧
      (parseRST (str "hello\nTitle\n=====")).sections = [] := by
  refine ⟨by decide, ?_, ?_⟩ <;>
    simp +decide [parseRST, parseLinesAux, splitBN, consPiece, str, isUnderline, trimStr,
      isWs, isDirectiveOpen, getHeaderLevel]

theorem drop_sub_length_drop (rest : List Str) (k : Nat) :
    rest.drop (rest.length - (rest.drop k).length) = rest.drop k := by
  by_cases h : k ≤ rest.length
  · have := List.length_drop k rest
    have : rest.length - (rest.drop k).length = k := by omega
    rw [this]
  · have h1 : rest.drop k = [] := List.drop_eq_nil_of_le (by omega)
    rw [h1]
    simp only [List.length_nil, Nat.sub_zero]
    exact List.drop_eq_nil_of_le (by omega)

theorem drop_one_of_drop {l : List Str} {i : Nat} {x : Str} {xs : List Str}
    (h : l.drop i = x :: xs) : l.drop (i + 1) = xs := by
  have h1 := List.drop_drop 1 i l
  rw [h] at h1
  simpa [Nat.add_comm] using h1.symm

theorem parseLinesAux_sections_from_headers (full : List Str) :
    ∀ (lines : List Str) (i : Nat) (title : Str) (done : List PSection)
      (cur : Option PSection) (dirs : List RSTDirective),
      full.drop i = lines →
      (∀ sec ∈ done ++ cur.toList, ∃ l u,
          full[sec.lineStart]? = some l ∧ full[sec.lineStart + 1]? = some u ∧
          isUnderline u = true ∧ trimStr l ≠ [] ∧ sec.title = trimStr l ∧
          sec.level = getHeaderLevel (u.headD ' ')) →
      ∀ sec ∈ (parseLinesAux lines i title done cur dirs).2.1, ∃ l u,
          full[sec.lineStart]? = some l ∧ full[sec.lineStart + 1]? = some u ∧
          isUnderline u = true ∧ trimStr l ≠ [] ∧ sec.title = trimStr l ∧
          sec.level = getHeaderLevel (u.headD ' ') := by
  intro lines i title done cur dirs
  induction lines, i, title, done, cur, dirs using parseLinesAux.induct with
  | case1 x title done cur dirs =>
    intro hdrop hinv sec hsec
    rw [parseLinesAux.eq_def] at hsec
    exact hinv sec hsec
  | case2 line rest i title done cur dirs hc nx lv ht ih =>
    intro hdrop hinv sec hsec
    have heq : parseLinesAux (line :: rest) i title done cur dirs =
        parseLinesAux (rest.drop 1) (i + 2) (trimStr line) done cur dirs := by
      rw [parseLinesAux.eq_def]
      simp only [dif_pos hc]
      rw [if_pos (show title = [] ∧
        getHeaderLevel (List.headD (rest.headD []) ' ') = 1 from ht)]
    rw [heq] at hsec
    refine ih ?_ hinv sec hsec
    obtain ⟨next, rest2, hrest⟩ := List.exists_cons_of_ne_nil hc.1
    have ha := drop_one_of_drop hdrop
    have hb := drop_one_of_drop (by rw [ha, hrest] : full.drop (i + 1) = next :: rest2)
    rw [hrest]
    exact hb
  | case3 line rest i title done cur dirs hc nx lv ht ih =>
    intro hdrop hinv sec hsec
    have heq : parseLinesAux (line :: rest) i title done cur dirs =
        parseLinesAux (rest.drop 1) (i + 2) title (done ++ cur.toList)
          (some ⟨trimStr line, getHeaderLevel (List.headD (rest.headD []) ' '), [], i⟩)
          dirs := by
      rw [parseLinesAux.eq_def]
      simp only [dif_pos hc]
      rw [if_neg (show ¬(title = [] ∧
        getHeaderLevel (List.headD (rest.headD []) ' ') = 1) from ht)]
    rw [heq] at hsec
    refine ih ?_ ?_ sec hsec
    · obtain ⟨next, rest2, hrest⟩ := List.exists_cons_of_ne_nil hc.1
      have ha := drop_one_of_drop hdrop
      have hb := drop_one_of_drop (by rw [ha, hrest] : full.drop (i + 1) = next :: rest2)
      rw [hrest]
      exact hb
    · intro s hs
      rw [List.mem_append] at hs
      rcases hs with hs | hs
      · rw [List.mem_append] at hs
        rcases hs with hs | hs
        · exact hinv s (by rw [List.mem_append]; left; exact hs)
        · exact hinv s (by rw [List.mem_append]; right; exact hs)
      · obtain ⟨next, rest2, hrest⟩ := List.exists_cons_of_ne_nil hc.1
        simp only [Option.toList_some, List.mem_singleton] at hs
        subst hs
        refine ⟨line, next, ?_, ?_, ?_, hc.2.2, rfl, ?_⟩
        · have hq : (full.drop i)[0]? = full[i + 0]? := List.getElem?_drop full i 0
          rw [hdrop] at hq
          simpa using hq.symm
        · have hq : (full.drop i)[1]? = full[i + 1]? := List.getElem?_drop full i 1
          rw [hdrop, hrest] at hq
          simpa using hq.symm
        · have hu := hc.2.1
          rw [hrest] at hu
          simpa using hu
        · show getHeaderLevel (List.headD (rest.headD []) ' ') =
            getHeaderLevel (List.headD next ' ')
          rw [hrest]
          simp
  | case4 line rest i title done cur dirs hc hdir hlen ih =>
    intro hdrop hinv sec hsec
    have heq : parseLinesAux (line :: rest) i title done cur dirs =
        parseLinesAux (parseDirective line rest).2
          (i + 1 + (rest.length - (parseDirective line rest).2.length)) title done cur
          (dirs ++ [(parseDirective line rest).1]) := by
      rw [parseLinesAux.eq_def]
      simp only [dif_neg hc]
      rw [if_pos hdir]
      simp only [dif_pos hlen]
    rw [heq] at hsec
    refine ih ?_ hinv sec hsec
    obtain ⟨k, hk⟩ := parseDirective_suffix line rest
    have h1 : full.drop (i + 1) = rest := drop_one_of_drop hdrop
    have h3 : full.drop (i + 1 + (rest.length - (parseDirective line rest).2.length)) =
        rest.drop (rest.length - (parseDirective line rest).2.length) := by
      rw [← h1, List.drop_drop]
    rw [h3, hk, drop_sub_length_drop]
  | case5 line rest i title done cur dirs hc hdir hlen ih =>
    intro hdrop hinv sec hsec
    have heq : parseLinesAux (line :: rest) i title done cur dirs =
        parseLinesAux rest (i + 1) title done cur
          (dirs ++ [(parseDirective line rest).1]) := by
      rw [parseLinesAux.eq_def]
      simp only [dif_neg hc]
      rw [if_pos hdir]
      simp only [dif_neg hlen]
    rw [heq] at hsec
    refine ih ?_ hinv sec hsec
    exact drop_one_of_drop hdrop
  | case6 line rest i title done dirs hc hdir c ih =>
    intro hdrop hinv sec hsec
    have heq : parseLinesAux (line :: rest) i title done (some c) dirs =
        parseLinesAux rest (i + 1) title done
          (some ⟨c.title, c.level, c.content ++ line ++ ['\\', 'n'], c.lineStart⟩) dirs := by
      rw [parseLinesAux.eq_def]
      simp only [dif_neg hc]
      rw [if_neg hdir]
    rw [heq] at hsec
    refine ih ?_ ?_ sec hsec
    · exact drop_one_of_drop hdrop
    · intro s hs
      rw [List.mem_append] at hs
      rcases hs with hs | hs
      · exact hinv s (by rw [List.mem_append]; left; exact hs)
      · simp only [Option.toList_some, List.mem_singleton] at hs
        subst hs
        obtain ⟨l, u, h1, h2, h3, h4, h5, h6⟩ := hinv c (by
          rw [List.mem_append]; right; simp)
        exact ⟨l, u, h1, h2, h3, h4, h5, h6⟩
  | case7 line rest i title done dirs hc hdir ih =>
    intro hdrop hinv sec hsec
    have heq : parseLinesAux (line :: rest) i title done none dirs =
        parseLinesAux rest (i + 1) title done none dirs := by
      rw [parseLinesAux.eq_def]
      simp only [dif_neg hc]
      rw [if_neg hdir]
    rw [heq] at hsec
    refine ih ?_ hinv sec hsec
    exact drop_one_of_drop hdrop

/-- C5, amended.  The structural parser does not collect leading lines
into an implicit "Introduction" section (it drops from the section
structure every line seen while no section is open): every section of
the resulting document arises from a recognized header pair in the line
array — its `lineStart` points at a non-blank line followed by an
underline line, its title is that line trimmed, and its level comes from
the underline character.  The "Introduction" behaviour claimed here is
implemented only by the Markdown chunker's `splitByHeaders`. -/
theorem c5_no_introduction_section (content : Str) (sec : PSection)
    (hmem : sec ∈ (parseRST content).sections) :
    ∃ l u,
      (splitBN content)[sec.lineStart]? = some l ∧
      (splitBN content)[sec.lineStart + 1]? = some u ∧
      isUnderline u = true ∧ trimStr l ≠ [] ∧ sec.title = trimStr l ∧
      sec.level = getHeaderLevel (u.headD ' ') := by
  refine parseLinesAux_sections_from_headers (splitBN content)
    (splitBN content) 0 [] [] none [] rfl (by simp) sec ?_
  simpa [parseRST] using hmem

/-- Witness for the amended C5 at a concrete input with one section
(the "line" separators are the literal two-character sequence `\n`
that the source's `split('\\n')` actually splits on). -/
theorem c5_no_introduction_section_witness :
    (⟨str "B", 2, str "x" ++ ['\\', 'n'], 2⟩ : PSection) ∈
        (parseRST (str "A\\n=\\nB\\n-\\nx")).sections ∧
      ∃ l u,
        (splitBN (str "A\\n=\\nB\\n-\\nx"))[2]? = some l ∧
        (splitBN (str "A\\n=\\nB\\n-\\nx"))[2 + 1]? = some u ∧
        isUnderline u = true ∧ trimStr l ≠ [] ∧
        (⟨str "B", 2, str "x" ++ ['\\', 'n'], 2⟩ : PSection).title = trimStr l ∧
        (⟨str "B", 2, str "x" ++ ['\\', 'n'], 2⟩ : PSection).level =
          getHeaderLevel (u.headD ' ') := by
  have hmem : (⟨str "B", 2, str "x" ++ ['\\', 'n'], 2⟩ : PSection) ∈
      (parseRST (str "A\\n=\\nB\\n-\\nx")).sections := by
    simp +decide [parseRST, parseLinesAux, splitBN, consPiece, str, isUnderline, trimStr,
      isWs, isDirectiveOpen, getHeaderLevel]
  exact ⟨hmem, c5_no_introduction_section (str "A\\n=\\nB\\n-\\nx")
    ⟨str "B", 2, str "x" ++ ['\\', 'n'], 2⟩ hmem⟩

/-!
Word-count lemmas: `countWords` is, up to the JavaScript `[""]` quirk,
the number of maximal non-whitespace runs, and is subadditive across a
blank-line separator.
-/

theorem countBSAux_cons_of_ne (c : Char) (hc : c ≠ '\\') (s : Str) :
    countBSAux (c :: s) = countBSAux s := by
  cases s with
  | nil => rfl
  | cons d r => simp [countBSAux, hc]

theorem countBSAux_cons_cons (c1 c2 : Char) (h : ¬(c1 = '\\' ∧ c2 = 's')) (r : Str) :
    countBSAux (c1 :: c2 :: r) = countBSAux (c2 :: r) := by
  simp [countBSAux, h]

theorem countBSAux_le_cons (c : Char) (s : Str) :
    countBSAux s ≤ countBSAux (c :: s) := by
  cases s with
  | nil => exact Nat.le_refl _
  | cons d r =>
    show countBSAux (d :: r) ≤ countBSAux (c :: d :: r)
    rw [show countBSAux (c :: d :: r) =
      (if c = '\\' ∧ d = 's' then 1 else 0) + countBSAux (d :: r) from rfl]
    exact Nat.le_add_left _ _

theorem countBSAux_append_of_ne (d : Char) (hd : d ≠ 's') (b : Str) :
    ∀ a : Str, countBSAux (a ++ d :: b) = countBSAux a + countBSAux (d :: b) := by
  intro a
  induction a with
  | nil => simp [show countBSAux ([] : Str) = 0 from rfl]
  | cons c a' ih =>
    cases a' with
    | nil =>
      have hne : ¬(c = '\\' ∧ d = 's') := fun h => hd h.2
      rw [show ([c] : Str) ++ d :: b = c :: d :: b from rfl,
        countBSAux_cons_cons c d hne, show countBSAux ([c] : Str) = 0 from rfl]
      omega
    | cons e r =>
      rw [show (c :: e :: r : Str) ++ d :: b = c :: e :: (r ++ d :: b) from by simp,
        show countBSAux (c :: e :: (r ++ d :: b)) =
          (if c = '\\' ∧ e = 's' then 1 else 0) + countBSAux (e :: (r ++ d :: b)) from rfl,
        show countBSAux (c :: e :: r) =
          (if c = '\\' ∧ e = 's' then 1 else 0) + countBSAux (e :: r) from rfl,
        show (e :: (r ++ d :: b) : Str) = (e :: r) ++ d :: b from by simp, ih]
      omega

theorem countBSAux_ws_prefix {w : Str} (hw : ∀ c ∈ w, isWs c = true) (s : Str) :
    countBSAux (w ++ s) = countBSAux s := by
  induction w with
  | nil => rfl
  | cons c w' ih =>
    have hc : c ≠ '\\' := by
      intro h
      subst h
      exact absurd (hw '\\' (by simp)) (by decide)
    rw [List.cons_append, countBSAux_cons_of_ne c hc (w' ++ s)]
    exact ih (fun x hx => hw x (by simp [hx]))

theorem countBSAux_append_single {w : Char} (hw : w ≠ 's') :
    ∀ x : Str, countBSAux (x ++ [w]) = countBSAux x := by
  intro x
  induction x with
  | nil => rfl
  | cons c x' ih =>
    cases x' with
    | nil =>
      have hne : ¬(c = '\\' ∧ w = 's') := fun h => hw h.2
      rw [show ([c] : Str) ++ [w] = c :: w :: ([] : Str) from rfl,
        countBSAux_cons_cons c w hne]
      rfl
    | cons d r =>
      rw [show (c :: d :: r : Str) ++ [w] = c :: d :: (r ++ [w]) from by simp,
        show countBSAux (c :: d :: (r ++ [w])) =
          (if c = '\\' ∧ d = 's' then 1 else 0) + countBSAux (d :: (r ++ [w])) from rfl,
        show countBSAux (c :: d :: r) =
          (if c = '\\' ∧ d = 's' then 1 else 0) + countBSAux (d :: r) from rfl,
        show (d :: (r ++ [w]) : Str) = (d :: r) ++ [w] from by simp, ih]

theorem countBSAux_ws_suffix :
    ∀ w : Str, (∀ c ∈ w, isWs c = true) → ∀ x : Str, countBSAux (x ++ w) = countBSAux x := by
  intro w
  induction w with
  | nil =>
    intro _ x
    rw [List.append_nil]
  | cons c w' ih =>
    intro hw x
    have hc : c ≠ 's' := by
      intro h
      subst h
      exact absurd (hw 's' (by simp)) (by decide)
    rw [show x ++ c :: w' = (x ++ [c]) ++ w' from by simp,
      ih (fun d hd => hw d (by simp [hd])) (x ++ [c]), countBSAux_append_single hc x]

theorem dropWhile_head_not {p : Char → Bool} :
    ∀ (l : Str) {c : Char} {cs : Str}, l.dropWhile p = c :: cs → p c = false := by
  intro l
  induction l with
  | nil => intro c cs h; simp [List.dropWhile] at h
  | cons a as ih =>
    intro c cs h
    by_cases ha : p a = true
    · rw [List.dropWhile_cons, if_pos ha] at h
      exact ih h
    · rw [List.dropWhile_cons, if_neg ha] at h
      cases h
      simpa using ha

theorem takeWhile_all {p : Char → Bool} (l : Str) : ∀ c ∈ l.takeWhile p, p c = true := by
  induction l with
  | nil => simp [List.takeWhile]
  | cons a as ih =>
    intro c hc
    by_cases ha : p a = true
    · rw [List.takeWhile_cons, if_pos ha] at hc
      rcases List.mem_cons.mp hc with h | h
      · subst h; exact ha
      · exact ih c h
    · rw [List.takeWhile_cons, if_neg ha] at hc
      simp at hc

theorem dropWhile_eq_trim_append (s : Str) :
    s.dropWhile isWs = trimStr s ++ ((s.dropWhile isWs).reverse.takeWhile isWs).reverse := by
  have h1 : (s.dropWhile isWs).reverse =
      (s.dropWhile isWs).reverse.takeWhile isWs ++ (s.dropWhile isWs).reverse.dropWhile isWs :=
    (List.takeWhile_append_dropWhile isWs _).symm
  have h2 := congrArg List.reverse h1
  rw [List.reverse_reverse, List.reverse_append] at h2
  conv_lhs => rw [h2]
  rfl

theorem trimStr_decompose (s : Str) :
    ∃ w1 w2, s = w1 ++ trimStr s ++ w2 ∧ (∀ c ∈ w1, isWs c = true) ∧
      (∀ c ∈ w2, isWs c = true) := by
  refine ⟨s.takeWhile isWs, ((s.dropWhile isWs).reverse.takeWhile isWs).reverse, ?_,
    takeWhile_all s, ?_⟩
  · conv_lhs => rw [← List.takeWhile_append_dropWhile isWs s, dropWhile_eq_trim_append s]
    rw [List.append_assoc]
  · intro c hc
    exact takeWhile_all _ c (List.mem_reverse.mp hc)

theorem trimStr_head_not_ws {s : Str} {c : Char} {cs : Str} (h : trimStr s = c :: cs) :
    isWs c = false := by
  have hy := dropWhile_eq_trim_append s
  rw [h] at hy
  exact dropWhile_head_not _ (by simpa using hy)

theorem countBSAux_trim (s : Str) : countBSAux (trimStr s) = countBSAux s := by
  obtain ⟨w1, w2, hdec, hw1, hw2⟩ := trimStr_decompose s
  conv_rhs => rw [hdec]
  rw [List.append_assoc, countBSAux_ws_prefix hw1, countBSAux_ws_suffix w2 hw2 (trimStr s)]

theorem countBSAux_append_sep (a b : Str) :
    countBSAux (a ++ '\\' :: 'n' :: '\\' :: 'n' :: b) = countBSAux a + countBSAux b := by
  rw [countBSAux_append_of_ne '\\' (by decide) ('n' :: '\\' :: 'n' :: b) a,
    countBSAux_cons_cons '\\' 'n' (by decide), countBSAux_cons_of_ne 'n' (by decide),
    countBSAux_cons_cons '\\' 'n' (by decide), countBSAux_cons_of_ne 'n' (by decide)]

theorem countWords_append_nn (a b : Str) :
    countWords (a ++ '\\' :: 'n' :: '\\' :: 'n' :: b) ≤ countWords a + countWords b := by
  unfold countWords
  rw [countBSAux_trim, countBSAux_trim, countBSAux_trim, countBSAux_append_sep]
  omega

theorem countWords_pos (s : Str) : 1 ≤ countWords s := by
  unfold countWords
  omega

theorem countBSAux_pos_mem : ∀ p : Str, 1 ≤ countBSAux p → '\\' ∈ p := by
  intro p
  induction p with
  | nil => intro h; exact absurd h (by decide)
  | cons c p' ih =>
    intro h
    cases p' with
    | nil => exact absurd h (by rw [show countBSAux [c] = 0 from rfl]; decide)
    | cons d r =>
      by_cases hc : c = '\\' ∧ d = 's'
      · rw [hc.1]
        simp
      · rw [countBSAux_cons_cons c d hc] at h
        exact List.mem_cons_of_mem c (ih h)

/-!
C1: the chunk-size bound.
-/

theorem slsAux_mem_wordCount (t : Str) (m : Nat) (P : List Str) :
    ∀ (ps : List Str) (cur : Str) (idx : Nat),
      (∀ p ∈ ps, p ∈ P) →
      (cur = [] ∨ countWords cur ≤ m ∨ cur ∈ P) →
      ∀ c ∈ splitLargeSectionAux t m ps cur idx,
        c.wordCount ≤ m ∨
          ∃ p ∈ P, m < countWords p ∧ c.content = trimStr p ∧
            c.wordCount = countWords p := by
  intro ps
  induction ps with
  | nil =>
    intro cur idx hps hcur c hc
    rw [splitLargeSectionAux] at hc
    by_cases htr : trimStr cur ≠ []
    · rw [if_pos htr] at hc
      simp only [List.mem_singleton] at hc
      subst hc
      rcases hcur with h | h | h
      · exact absurd (by subst h; rfl : trimStr cur = []) htr
      · exact Or.inl h
      · by_cases hle : countWords cur ≤ m
        · exact Or.inl hle
        · exact Or.inr ⟨cur, h, by omega, rfl, rfl⟩
    · rw [if_neg htr] at hc
      simp at hc
  | cons p ps' ih =>
    intro cur idx hps hcur c hc
    rw [splitLargeSectionAux] at hc
    by_cases hacc : countWords cur + countWords p ≤ m ∧ cur ≠ []
    · rw [if_pos hacc] at hc
      refine ih (cur ++ '\\' :: 'n' :: '\\' :: 'n' :: p) idx
        (fun q hq => hps q (by simp [hq])) ?_ c hc
      right; left
      calc countWords (cur ++ '\\' :: 'n' :: '\\' :: 'n' :: p)
          ≤ countWords cur + countWords p := countWords_append_nn cur p
        _ ≤ m := hacc.1
    · rw [if_neg hacc] at hc
      by_cases htr : trimStr cur ≠ []
      · rw [if_pos htr] at hc
        rcases List.mem_cons.mp hc with hc0 | hc1
        · subst hc0
          rcases hcur with h | h | h
          · exact absurd (by subst h; rfl : trimStr cur = []) htr
          · exact Or.inl h
          · by_cases hle : countWords cur ≤ m
            · exact Or.inl hle
            · exact Or.inr ⟨cur, h, by omega, rfl, rfl⟩
        · exact ih p (idx + 1) (fun q hq => hps q (by simp [hq]))
            (Or.inr (Or.inr (hps p (by simp)))) c hc1
      · rw [if_neg htr] at hc
        exact ih p idx (fun q hq => hps q (by simp [hq]))
          (Or.inr (Or.inr (hps p (by simp)))) c hc

theorem rewrapSubs_mem (tl : Str) :
    ∀ (i : Nat) (subs : List ContentChunk) (c : ContentChunk), c ∈ rewrapSubs tl i subs →
      ∃ sub ∈ subs, c.content = sub.content ∧ c.wordCount = sub.wordCount ∧
        c.metadata = { ChunkMetadata.empty with
                         parentSection := some tl
                         chunkType := some (str "subsection") } := by
  intro i subs
  induction subs generalizing i with
  | nil => intro c hc; rw [rewrapSubs] at hc; simp at hc
  | cons s ss ih =>
    intro c hc
    rw [rewrapSubs] at hc
    rcases List.mem_cons.mp hc with h | h
    · subst h
      exact ⟨s, by simp, rfl, rfl, rfl⟩
    · obtain ⟨sub, hs, h1, h2, h3⟩ := ih (i + 1) c h
      exact ⟨sub, by simp [hs], h1, h2, h3⟩

theorem addChunkContextAux_mem (all : List ContentChunk) :
    ∀ (i : Nat) (l : List ContentChunk) (c : ContentChunk), c ∈ addChunkContextAux all i l →
      ∃ c' ∈ l, c.content = c'.content ∧ c.wordCount = c'.wordCount ∧
        c.metadata = c'.metadata ∧ c.id = c'.id ∧ c.title = c'.title := by
  intro i l
  induction l generalizing i with
  | nil => intro c hc; rw [addChunkContextAux] at hc; simp at hc
  | cons x xs ih =>
    intro c hc
    rw [addChunkContextAux] at hc
    rcases List.mem_cons.mp hc with h | h
    · subst h
      exact ⟨x, by simp, rfl, rfl, rfl, rfl, rfl⟩
    · obtain ⟨c', hcm, h1, h2, h3, h4, h5⟩ := ih (i + 1) c h
      exact ⟨c', by simp [hcm], h1, h2, h3, h4, h5⟩

theorem chunkContentAux_mem_wordCount (m : Nat) (allSecs : List MSection) :
    ∀ (ss : List MSection) (acc : List ContentChunk) (cur : Option ContentChunk) (idx : Nat),
      (∀ s ∈ ss, s ∈ allSecs) →
      (∀ c ∈ acc, c.wordCount ≤ m ∨ ∃ sec ∈ allSecs, ∃ p ∈ splitBNN sec.content,
          m < countWords p ∧ c.content = trimStr p ∧ c.wordCount = countWords p) →
      (∀ c0, cur = some c0 → c0.wordCount ≤ m) →
      ∀ c ∈ chunkContentAux m ss acc cur idx,
        c.wordCount ≤ m ∨ ∃ sec ∈ allSecs, ∃ p ∈ splitBNN sec.content,
          m < countWords p ∧ c.content = trimStr p ∧ c.wordCount = countWords p := by
  intro ss
  induction ss with
  | nil =>
    intro acc cur idx hss hacc hcur c hc
    replace hc : c ∈ acc ++ cur.toList := hc
    rw [List.mem_append] at hc
    rcases hc with hc | hc
    · exact hacc c hc
    · cases cur with
      | none => simp at hc
      | some c0 =>
        simp only [Option.toList_some, List.mem_singleton] at hc
        subst hc
        exact Or.inl (hcur c rfl)
  | cons sec rest ih =>
    intro acc cur idx hss hacc hcur c hc
    have hsubs : ∀ c' ∈ rewrapSubs sec.title (idx + 1)
        (splitLargeSection sec.title sec.content m),
        c'.wordCount ≤ m ∨ ∃ s ∈ allSecs, ∃ p ∈ splitBNN s.content,
          m < countWords p ∧ c'.content = trimStr p ∧ c'.wordCount = countWords p := by
      intro c' hc'
      obtain ⟨sub, hsub, e1, e2, _⟩ := rewrapSubs_mem sec.title (idx + 1) _ c' hc'
      have := slsAux_mem_wordCount sec.title m (splitBNN sec.content)
        (splitBNN sec.content) [] 0 (fun q hq => hq) (Or.inl rfl) sub hsub
      rcases this with h | ⟨p, hp, hgt, hcnt, hwc⟩
      · exact Or.inl (by rw [e2]; exact h)
      · exact Or.inr ⟨sec, hss sec (by simp), p, hp, hgt, by rw [e1, hcnt],
          by rw [e2, hwc]⟩
    cases cur with
    | some c0 =>
      rw [chunkContentAux.eq_def] at hc
      by_cases h1 : c0.wordCount + countWords sec.content ≤ m
      · simp only [if_pos h1] at hc
        refine ih acc _ idx (fun s hs => hss s (by simp [hs])) hacc ?_ c hc
        intro c1 hc1
        cases hc1
        exact h1
      · simp only [if_neg h1] at hc
        by_cases h2 : m < countWords sec.content
        · simp only [if_pos h2] at hc
          refine ih _ none _ (fun s hs => hss s (by simp [hs])) ?_
            (fun c1 hc1 => Option.noConfusion hc1) c hc
          intro c1 hc1
          rw [List.append_assoc, List.mem_append] at hc1
          rcases hc1 with hc1 | hc1
          · exact hacc c1 hc1
          · rw [List.mem_append] at hc1
            rcases hc1 with hc1 | hc1
            · simp only [List.mem_singleton] at hc1
              subst hc1
              exact Or.inl (hcur c1 rfl)
            · exact hsubs c1 hc1
        · simp only [if_neg h2] at hc
          refine ih _ _ _ (fun s hs => hss s (by simp [hs])) ?_ ?_ c hc
          · intro c1 hc1
            rw [List.mem_append] at hc1
            rcases hc1 with hc1 | hc1
            · exact hacc c1 hc1
            · simp only [List.mem_singleton] at hc1
              subst hc1
              exact Or.inl (hcur c1 rfl)
          · intro c1 hc1
            cases hc1
            exact (by omega : countWords sec.content ≤ m)
    | none =>
      rw [chunkContentAux.eq_def] at hc
      by_cases h2 : m < countWords sec.content
      · simp only [if_pos h2] at hc
        refine ih _ none _ (fun s hs => hss s (by simp [hs])) ?_
          (fun c1 hc1 => Option.noConfusion hc1) c hc
        intro c1 hc1
        rw [List.mem_append] at hc1
        rcases hc1 with hc1 | hc1
        · exact hacc c1 hc1
        · exact hsubs c1 hc1
      · simp only [if_neg h2] at hc
        refine ih _ _ _ (fun s hs => hss s (by simp [hs])) hacc ?_ c hc
        intro c1 hc1
        cases hc1
        exact (by omega : countWords sec.content ≤ m)

/-- C1.  For every Markdown input and options with positive `chunkSize`,
every chunk returned by `chunkContent` has `wordCount ≤ chunkSize`,
except a chunk produced while splitting an oversized section from a
single paragraph that alone exceeds the budget: such a chunk is exactly
that one paragraph (trimmed) — the splitter overshoots by at most one
paragraph and never splits inside a paragraph. -/
theorem c1_chunk_size_bound (markdown : Str) (opts : OptimizationOptions)
    (h : 0 < opts.chunkSize) :
    ∀ c ∈ chunkContent markdown opts,
      c.wordCount ≤ opts.chunkSize ∨
        ∃ sec ∈ splitByHeaders markdown, ∃ p ∈ splitBNN sec.content,
          opts.chunkSize < countWords p ∧ c.content = trimStr p ∧
            c.wordCount = countWords p := by
  intro c hc
  unfold chunkContent addChunkContext at hc
  obtain ⟨c', hc', h1, h2, _, _, _⟩ := addChunkContextAux_mem _ 0 _ c hc
  have res := chunkContentAux_mem_wordCount opts.chunkSize (splitByHeaders markdown)
    (splitByHeaders markdown) [] none 0 (fun s hs => hs) (by simp)
    (fun c0 hc0 => Option.noConfusion hc0) c' hc'
  rcases res with hres | ⟨sec, hsec, p, hp, hgt, hcnt, hwc⟩
  · exact Or.inl (by rw [h2]; exact hres)
  · exact Or.inr ⟨sec, hsec, p, hp, hgt, by rw [h1, hcnt], by rw [h2, hwc]⟩

/-- Witness for C1 at a concrete input and the default options. -/
theorem c1_chunk_size_bound_witness :
    0 < defaultOptions.chunkSize ∧
      ∀ c ∈ chunkContent (str "# A\nx y") defaultOptions,
        c.wordCount ≤ defaultOptions.chunkSize ∨
          ∃ sec ∈ splitByHeaders (str "# A\nx y"), ∃ p ∈ splitBNN sec.content,
            defaultOptions.chunkSize < countWords p ∧ c.content = trimStr p ∧
              c.wordCount = countWords p :=
  ⟨by decide, c1_chunk_size_bound (str "# A\nx y") defaultOptions (by decide)⟩

/-!
C6: splitting a single oversized section.
-/

theorem trimStr_eq_nil_iff (x : Str) : trimStr x = [] ↔ ∀ c ∈ x, isWs c = true := by
  constructor
  · intro h c hc
    obtain ⟨w1, w2, hdec, hw1, hw2⟩ := trimStr_decompose x
    rw [h] at hdec
    rw [hdec] at hc
    simp only [List.append_nil, List.mem_append] at hc
    rcases hc with hc | hc
    · exact hw1 c hc
    · exact hw2 c hc
  · intro h
    have h1 : x.dropWhile isWs = [] := by
      rw [List.dropWhile_eq_nil_iff]
      intro c hc
      exact h c hc
    unfold trimStr
    rw [h1]
    rfl

theorem splitBNN_cons_of (c0 : Char) (s : Str)
    (h : ∀ s1 : Str, c0 = '\\' → s = 'n' :: '\\' :: 'n' :: s1 → False) :
    splitBNN (c0 :: s) = consPiece c0 (splitBNN s) := by
  rw [splitBNN.eq_def]
  split
  · rename_i heq
    exact absurd heq (by simp)
  · rename_i s1 heq
    rw [List.cons.injEq] at heq
    obtain ⟨h1, h2⟩ := heq
    exact absurd (h _ h1 h2) not_false
  · rename_i c1 s1 hsh heq
    rw [List.cons.injEq] at heq
    obtain ⟨h1, h2⟩ := heq
    subst h1
    subst h2
    rfl

theorem splitBNN_ne_nil (s : Str) : splitBNN s ≠ [] := by
  induction s using splitBNN.induct with
  | case1 => simp [splitBNN]
  | case2 s ih => simp [splitBNN]
  | case3 c s hshape ih =>
    rw [splitBNN_cons_of c s hshape]
    cases splitBNN s <;> simp [consPiece]

theorem countBSAux_sep_cons (b : Str) :
    countBSAux ('\\' :: 'n' :: '\\' :: 'n' :: b) = countBSAux b := by
  rw [countBSAux_cons_cons '\\' 'n' (by decide), countBSAux_cons_of_ne 'n' (by decide),
    countBSAux_cons_cons '\\' 'n' (by decide), countBSAux_cons_of_ne 'n' (by decide)]

theorem countBSAux_split_cover :
    ∀ s : Str, 1 ≤ countBSAux s → ∃ p ∈ splitBNN s, 1 ≤ countBSAux p := by
  intro s
  induction s using splitBNN.induct with
  | case1 => intro h; exact absurd h (by decide)
  | case2 s ih =>
    intro h
    rw [countBSAux_sep_cons] at h
    obtain ⟨p, hp, hp1⟩ := ih h
    exact ⟨p, by rw [splitBNN]; simp [hp], hp1⟩
  | case3 c s hshape ih =>
    intro h
    obtain ⟨q, qs, hqs⟩ := List.exists_cons_of_ne_nil (splitBNN_ne_nil s)
    have hsplit : splitBNN (c :: s) = (c :: q) :: qs := by
      rw [splitBNN_cons_of c s hshape, hqs]
      rfl
    cases s with
    | nil =>
      exact absurd h (by rw [show countBSAux [c] = 0 from rfl]; decide)
    | cons d r =>
      by_cases hc : c = '\\' ∧ d = 's'
      · obtain ⟨hc1, hc2⟩ := hc
        subst hc1
        subst hc2
        obtain ⟨q', qs', hq'⟩ := List.exists_cons_of_ne_nil (splitBNN_ne_nil r)
        have hs2 : splitBNN ('s' :: r) = ('s' :: q') :: qs' := by
          rw [splitBNN_cons_of 's' r (fun s1 h1 _ => absurd h1 (by decide)), hq']
          rfl
        rw [hs2] at hqs
        rw [List.cons.injEq] at hqs
        refine ⟨'\\' :: q, by rw [hsplit]; simp, ?_⟩
        rw [hqs.1.symm] at *
        rw [show countBSAux ('\\' :: 's' :: q') =
          (if ('\\' : Char) = '\\' ∧ ('s' : Char) = 's' then 1 else 0)
            + countBSAux ('s' :: q') from rfl]
        simp
      · rw [countBSAux_cons_cons c d hc] at h
        obtain ⟨p, hp, hp1⟩ := ih h
        rw [hqs] at hp
        rcases List.mem_cons.mp hp with hp | hp
        · subst hp
          exact ⟨c :: p, by rw [hsplit]; simp, le_trans hp1 (countBSAux_le_cons c p)⟩
        · exact ⟨p, by rw [hsplit]; simp [hp], hp1⟩

theorem slsAux_eq_nil (t : Str) (m : Nat) :
    ∀ (ps : List Str) (cur : Str) (idx : Nat),
      splitLargeSectionAux t m ps cur idx = [] →
      trimStr cur = [] ∧ ∀ p ∈ ps, trimStr p = [] := by
  intro ps
  induction ps with
  | nil =>
    intro cur idx h
    rw [splitLargeSectionAux] at h
    by_cases htr : trimStr cur ≠ []
    · rw [if_pos htr] at h
      simp at h
    · rw [if_neg htr] at h
      exact ⟨by simpa using htr, by simp⟩
  | cons p ps' ih =>
    intro cur idx h
    rw [splitLargeSectionAux] at h
    by_cases hacc : countWords cur + countWords p ≤ m ∧ cur ≠ []
    · rw [if_pos hacc] at h
      obtain ⟨hcur, -⟩ := ih _ _ h
      rw [trimStr_eq_nil_iff] at hcur
      exact absurd (hcur '\\' (by simp)) (by decide)
    · rw [if_neg hacc] at h
      by_cases htr : trimStr cur ≠ []
      · rw [if_pos htr] at h
        simp at h
      · rw [if_neg htr] at h
        obtain ⟨hp, hps⟩ := ih _ _ h
        refine ⟨by simpa using htr, ?_⟩
        intro q hq
        rcases List.mem_cons.mp hq with hq | hq
        · subst hq; exact hp
        · exact hps q hq

theorem splitLargeSection_ne_nil {content : Str} (t : Str) (m : Nat)
    (h : 2 ≤ countWords content) : splitLargeSection t content m ≠ [] := by
  intro hnil
  obtain ⟨-, hps⟩ := slsAux_eq_nil t m (splitBNN content) [] 0 hnil
  have h1 : 1 ≤ countBSAux content := by
    unfold countWords at h
    rw [countBSAux_trim] at h
    omega
  obtain ⟨p, hp, hp1⟩ := countBSAux_split_cover content h1
  have hq := hps p hp
  rw [trimStr_eq_nil_iff] at hq
  exact absurd (hq '\\' (countBSAux_pos_mem p hp1)) (by decide)

theorem slsAux_shape (t : Str) (m : Nat) :
    ∀ (ps : List Str) (cur : Str) (idx : Nat) (j : Nat) (c : ContentChunk),
      (splitLargeSectionAux t m ps cur idx)[j]? = some c →
      c.metadata.partOf = some t ∧ c.id = t ++ '-' :: natStr (idx + j + 1) ∧
        (c.title = mkPartTitle t (idx + j + 1) ∨
          (idx = 0 ∧ j = 0 ∧ (splitLargeSectionAux t m ps cur idx).length = 1 ∧
            c.title = t)) := by
  intro ps
  induction ps with
  | nil =>
    intro cur idx j c hc
    rw [splitLargeSectionAux] at hc ⊢
    by_cases htr : trimStr cur ≠ []
    · rw [if_pos htr] at hc ⊢
      rcases j with _ | j'
      · rw [List.getElem?_cons_zero] at hc
        cases hc
        refine ⟨rfl, rfl, ?_⟩
        by_cases hidx : 1 < idx + 1
        · left
          show (if 1 < idx + 1 then mkPartTitle t (idx + 1) else t) = mkPartTitle t (idx + 1)
          rw [if_pos hidx]
        · right
          refine ⟨by omega, rfl, rfl, ?_⟩
          show (if 1 < idx + 1 then mkPartTitle t (idx + 1) else t) = t
          rw [if_neg hidx]
      · rw [List.getElem?_cons_succ] at hc
        simp at hc
    · rw [if_neg htr] at hc
      simp at hc
  | cons p ps' ih =>
    intro cur idx j c hc
    rw [splitLargeSectionAux] at hc ⊢
    by_cases hacc : countWords cur + countWords p ≤ m ∧ cur ≠ []
    · rw [if_pos hacc] at hc ⊢
      exact ih _ idx j c hc
    · rw [if_neg hacc] at hc ⊢
      by_cases htr : trimStr cur ≠ []
      · rw [if_pos htr] at hc ⊢
        rcases j with _ | j'
        · rw [List.getElem?_cons_zero] at hc
          cases hc
          exact ⟨rfl, rfl, Or.inl rfl⟩
        · rw [List.getElem?_cons_succ] at hc
          obtain ⟨h1, h2, h3⟩ := ih p (idx + 1) j' c hc
          have harith : idx + 1 + j' + 1 = idx + (j' + 1) + 1 := by omega
          refine ⟨h1, by rw [h2, harith], ?_⟩
          rcases h3 with h3 | ⟨h30, _⟩
          · left
            rw [h3, harith]
          · omega
      · rw [if_neg htr] at hc ⊢
        exact ih p idx j c hc

theorem rewrapSubs_length (tl : Str) :
    ∀ (i : Nat) (subs : List ContentChunk), (rewrapSubs tl i subs).length = subs.length := by
  intro i subs
  induction subs generalizing i with
  | nil => rfl
  | cons s ss ih => rw [rewrapSubs]; simp [ih]

theorem rewrapSubs_getElem (tl : Str) :
    ∀ (i : Nat) (subs : List ContentChunk) (j : Nat) (c : ContentChunk),
      (rewrapSubs tl i subs)[j]? = some c →
      ∃ sub, subs[j]? = some sub ∧ c.id = chunkId (i + j) ∧ c.title = sub.title := by
  intro i subs
  induction subs generalizing i with
  | nil => intro j c hc; rw [rewrapSubs] at hc; simp at hc
  | cons s ss ih =>
    intro j c hc
    rw [rewrapSubs] at hc
    rcases j with _ | j'
    · rw [List.getElem?_cons_zero] at hc
      cases hc
      exact ⟨s, by simp, rfl, rfl⟩
    · rw [List.getElem?_cons_succ] at hc
      obtain ⟨sub, h1, h2, h3⟩ := ih (i + 1) j' c hc
      refine ⟨sub, by simpa using h1, ?_, h3⟩
      rw [h2]
      have : i + 1 + j' = i + (j' + 1) := by omega
      rw [this]

theorem addChunkContextAux_length (all : List ContentChunk) :
    ∀ (i : Nat) (l : List ContentChunk), (addChunkContextAux all i l).length = l.length := by
  intro i l
  induction l generalizing i with
  | nil => rfl
  | cons x xs ih => rw [addChunkContextAux]; simp [ih]

theorem addChunkContextAux_getElem (all : List ContentChunk) :
    ∀ (i : Nat) (l : List ContentChunk) (j : Nat) (c : ContentChunk),
      (addChunkContextAux all i l)[j]? = some c →
      ∃ c', l[j]? = some c' ∧ c.id = c'.id ∧ c.title = c'.title ∧
        c.metadata = c'.metadata := by
  intro i l
  induction l generalizing i with
  | nil => intro j c hc; rw [addChunkContextAux] at hc; simp at hc
  | cons x xs ih =>
    intro j c hc
    rw [addChunkContextAux] at hc
    rcases j with _ | j'
    · rw [List.getElem?_cons_zero] at hc
      cases hc
      exact ⟨x, by simp, rfl, rfl, rfl⟩
    · rw [List.getElem?_cons_succ] at hc
      obtain ⟨c', h1, h2, h3, h4⟩ := ih (i + 1) j' c hc
      exact ⟨c', by simpa using h1, h2, h3, h4⟩

/-- Counterexample to C6 as stated: with `chunkSize` 1, the input
`"a\\sb"` (containing the literal character pair backslash-`s`, the only
thing the source's literal word-separator regex `/\\\s+/` matches) forms
a single section — the implicit `Introduction` one, since the literal
heading regex `^(#{1,6})\\\s+(.+)` cannot match an ordinary heading —
whose word count 2 exceeds the budget, yet `chunkContent` returns
exactly ONE chunk (a single oversized paragraph is never split into
more), and no chunk carries a `partOf` metadata entry: the re-wrapping
in `chunkContent` replaces the sub-chunks' metadata with
`parentSection`/`chunkType`. -/
theorem c6_counterexample :
    splitByHeaders (str "a\\sb") = [⟨str "Introduction", str "a\\sb", 1⟩] ∧
      1 < countWords (str "a\\sb") ∧
      (chunkContent (str "a\\sb") { defaultOptions with chunkSize := 1 }).length = 1 ∧
      ∀ c ∈ chunkContent (str "a\\sb") { defaultOptions with chunkSize := 1 },
        c.metadata.partOf = none := by decide

/-- C6, amended.  For every Markdown input forming a single section
whose word count exceeds the (positive) `chunkSize`, `chunkContent`
returns at least one chunk; every returned chunk is tagged with
metadata `parentSection` equal to the section title and `chunkType`
`"subsection"` (not `partOf`, which is discarded by the re-wrapping);
chunk ids are `chunk-1`, `chunk-2`, … in order; and when more than one
chunk results, the title of the `j`-th chunk (0-based) is the section
title suffixed with `" (Part j+1)"`. -/
theorem c6_oversized_section_split (md : Str) (opts : OptimizationOptions)
    (sec : MSection) (h1 : splitByHeaders md = [sec])
    (h2 : opts.chunkSize < countWords sec.content) (h3 : 1 ≤ opts.chunkSize) :
    chunkContent md opts ≠ [] ∧
      (∀ c ∈ chunkContent md opts,
        c.metadata.parentSection = some sec.title ∧
          c.metadata.chunkType = some (str "subsection") ∧
          c.metadata.partOf = none) ∧
      (∀ (j : Nat) (c : ContentChunk), (chunkContent md opts)[j]? = some c →
        c.id = chunkId (j + 1) ∧
          (2 ≤ (chunkContent md opts).length →
            c.title = mkPartTitle sec.title (j + 1))) := by
  have hrun : chunkContent md opts =
      addChunkContext (rewrapSubs sec.title 1
        (splitLargeSection sec.title sec.content opts.chunkSize)) := by
    unfold chunkContent
    rw [h1]
    rw [chunkContentAux.eq_def]
    simp only [if_pos h2]
    rw [chunkContentAux.eq_def]
    simp [splitLargeSection]
  have hne : splitLargeSection sec.title sec.content opts.chunkSize ≠ [] := by
    apply splitLargeSection_ne_nil
    omega
  have hlen : (chunkContent md opts).length =
      (splitLargeSection sec.title sec.content opts.chunkSize).length := by
    rw [hrun]
    unfold addChunkContext
    rw [addChunkContextAux_length, rewrapSubs_length]
  refine ⟨?_, ?_, ?_⟩
  · intro hnil
    apply hne
    apply List.length_eq_zero.mp
    have := congrArg List.length hnil
    rw [hlen] at this
    simpa using this
  · intro c hc
    rw [hrun] at hc
    unfold addChunkContext at hc
    obtain ⟨c', hc', _, _, e3, _, _⟩ := addChunkContextAux_mem _ 0 _ c hc
    obtain ⟨sub, _, _, _, e4⟩ := rewrapSubs_mem sec.title 1 _ c' hc'
    rw [e3, e4]
    exact ⟨rfl, rfl, rfl⟩
  · intro j c hc
    rw [hrun] at hc
    unfold addChunkContext at hc
    obtain ⟨c', hc', eid, etitle, _⟩ := addChunkContextAux_getElem _ 0 _ j c hc
    obtain ⟨sub, hsub, eid', etitle'⟩ := rewrapSubs_getElem sec.title 1 _ j c' hc'
    have hshape := slsAux_shape sec.title opts.chunkSize (splitBNN sec.content) [] 0
      j sub hsub
    obtain ⟨_, _, htitle⟩ := hshape
    constructor
    · rw [eid, eid']
      have : 1 + j = j + 1 := by omega
      rw [this]
    · intro hlen2
      rcases htitle with ht | ⟨_, _, hlen1, _⟩
      · rw [etitle, etitle', ht]
        have : 0 + j + 1 = j + 1 := by omega
        rw [this]
      · rw [hlen] at hlen2
        unfold splitLargeSection at hlen2
        omega

/-- Witness for the amended C6: the input `"a\\sb\\n\\ncc\\sdd"` (with the
literal four-character paragraph separator `\\n\\n` and two literal
`\\s`-separated "words" per paragraph) forms a single `Introduction`
section of word count 3 > 1, split into two `Part` chunks. -/
theorem c6_oversized_section_split_witness :
    splitByHeaders (str "a\\sb\\n\\ncc\\sdd") =
        [⟨str "Introduction", str "a\\sb\\n\\ncc\\sdd", 1⟩] ∧
      1 < countWords (str "a\\sb\\n\\ncc\\sdd") ∧
      1 ≤ (1 : Nat) ∧
      (chunkContent (str "a\\sb\\n\\ncc\\sdd")
          { defaultOptions with chunkSize := 1 } ≠ [] ∧
        (∀ c ∈ chunkContent (str "a\\sb\\n\\ncc\\sdd")
            { defaultOptions with chunkSize := 1 },
          c.metadata.parentSection = some (str "Introduction") ∧
            c.metadata.chunkType = some (str "subsection") ∧
            c.metadata.partOf = none) ∧
        (∀ (j : Nat) (c : ContentChunk),
          (chunkContent (str "a\\sb\\n\\ncc\\sdd")
              { defaultOptions with chunkSize := 1 })[j]? = some c →
          c.id = chunkId (j + 1) ∧
            (2 ≤ (chunkContent (str "a\\sb\\n\\ncc\\sdd")
                { defaultOptions with chunkSize := 1 }).length →
              c.title = mkPartTitle (str "Introduction") (j + 1)))) :=
  ⟨by decide, by decide, by decide,
    c6_oversized_section_split (str "a\\sb\\n\\ncc\\sdd")
      { defaultOptions with chunkSize := 1 }
      ⟨str "Introduction", str "a\\sb\\n\\ncc\\sdd", 1⟩ (by decide) (by decide) (by decide)⟩

/-!
C2: rendering of intra-document `:doc:` references.
-/

theorem scanRewrite_id (att : Str → Option (Str × Str)) :
    ∀ s : Str, (∀ t : Str, List.IsSuffix t s → att t = none) → scanRewrite att s = s := by
  intro s
  induction s with
  | nil => intro h; rw [scanRewrite]
  | cons c s' ih =>
    intro h
    rw [scanRewrite.eq_def]
    have h0 : att (c :: s') = none := h _ (List.suffix_refl _)
    simp only [h0]
    rw [ih (fun t ht => h t (ht.trans (List.suffix_cons c s')))]

theorem isLead_mem {t s : Str} (h : isLead t s = true) : ∀ c ∈ t, c ∈ s := by
  induction t generalizing s with
  | nil => simp
  | cons a as ih =>
    cases s with
    | nil => simp [isLead] at h
    | cons b bs =>
      simp only [isLead, Bool.and_eq_true, decide_eq_true_eq] at h
      intro c hc
      rcases List.mem_cons.mp hc with hc | hc
      · subst hc; rw [h.1]; simp
      · exact List.mem_cons_of_mem b (ih h.2 c hc)

theorem containsSub_mem {s t : Str} (h : containsSub s t = true) : ∀ c ∈ t, c ∈ s := by
  induction s with
  | nil =>
    rw [containsSub] at h
    intro c hc
    cases t with
    | nil => simp at hc
    | cons x xs => simp [isLead] at h
  | cons b bs ih =>
    rw [containsSub] at h
    rcases Bool.or_eq_true_iff.mp h with h | h
    · exact isLead_mem h
    · intro c hc
      exact List.mem_cons_of_mem b (ih h c hc)

theorem containsSub_of_suffix_lead {t s k : Str} (hsuf : List.IsSuffix t s)
    (hl : isLead k t = true) : containsSub s k = true := by
  obtain ⟨a, ha⟩ := hsuf
  rw [← ha]
  exact containsSub_append_right a (containsSub_of_isLead hl)

theorem scanRewrite_id_of_no_key (att : Str → Option (Str × Str)) (key : Str)
    (hatt : ∀ u, att u ≠ none → isLead key u = true) (s : Str)
    (hs : containsSub s key = false) : scanRewrite att s = s := by
  apply scanRewrite_id
  intro t ht
  by_contra hne
  have := containsSub_of_suffix_lead ht (hatt t hne)
  rw [hs] at this
  exact Bool.noConfusion this

theorem containsSub_eq_false_of_not_mem {s t : Str} {c : Char} (hct : c ∈ t)
    (hcs : c ∉ s) : containsSub s t = false := by
  by_contra h
  rw [Bool.not_eq_false] at h
  exact hcs (containsSub_mem h c hct)

theorem inlineCodeAtt_key : ∀ u, inlineCodeAtt u ≠ none → isLead (str "``") u = true := by
  intro u h
  by_cases hl : isLead (str "``") u = true
  · exact hl
  · unfold inlineCodeAtt at h
    rw [if_neg hl] at h
    exact absurd rfl h

theorem extLinkAtt_key : ∀ u, extLinkAtt u ≠ none → isLead ['`'] u = true := by
  intro u h
  by_cases hl : isLead ['`'] u = true
  · exact hl
  · unfold extLinkAtt at h
    rw [if_neg hl] at h
    exact absurd rfl h

theorem refAtt_key (pres : Bool) : ∀ u, refAtt pres u ≠ none → isLead (str ":ref:`") u = true := by
  intro u h
  by_cases hl : isLead (str ":ref:`") u = true
  · exact hl
  · unfold refAtt at h
    rw [if_neg hl] at h
    exact absurd rfl h

theorem docAtt_key (pres : Bool) : ∀ u, docAtt pres u ≠ none → isLead (str ":doc:`") u = true := by
  intro u h
  by_cases hl : isLead (str ":doc:`") u = true
  · exact hl
  · unfold docAtt at h
    rw [if_neg hl] at h
    exact absurd rfl h

theorem splitOnChar_no_sep {sep : Char} {s : Str} (h : sep ∉ s) :
    splitOnChar sep s = [s] := by
  induction s with
  | nil => rfl
  | cons c cs ih =>
    rw [splitOnChar]
    have hc : ¬ c = sep := by
      intro e
      exact h (by simp [e])
    rw [if_neg hc, ih (fun hmem => h (by simp [hmem]))]

theorem intercalate_single (sep a : Str) : List.intercalate sep [a] = a := by
  simp [List.intercalate]

theorem takeWhile_append_sat {p : Char → Bool} {a : Str} (b : Str)
    (h : ∀ c ∈ a, p c = true) : (a ++ b).takeWhile p = a ++ b.takeWhile p := by
  induction a with
  | nil => rfl
  | cons c cs ih =>
    have hc : p c = true := h c (by simp)
    rw [List.cons_append, List.takeWhile_cons, if_pos hc,
      ih (fun x hx => h x (by simp [hx]))]
    rfl

theorem no_dd_append : ∀ a : Str, '`' ∉ a → ∀ b : Str,
    containsSub b (str "``") = false → containsSub (a ++ b) (str "``") = false := by
  intro a
  induction a with
  | nil => intro _ b hb; exact hb
  | cons c a' ih =>
    intro ha b hb
    rw [List.cons_append, containsSub]
    have hc : ¬ ('`' = c) := fun e => ha (by rw [e]; exact List.mem_cons_self _ _)
    have hl : isLead (str "``") (c :: (a' ++ b)) = false := by
      simp [str, isLead, hc]
    rw [hl, ih (fun hm => ha (List.mem_cons_of_mem _ hm)) b hb]
    rfl

theorem no_dd_tick (r B : Str) (hr : '`' ∉ r) (hrne : r ≠ [])
    (hB : containsSub B (str "``") = false) (hBhead : isLead ['`'] B = false) :
    containsSub ('`' :: (r ++ '`' :: B)) (str "``") = false := by
  obtain ⟨c, r', hr'⟩ := List.exists_cons_of_ne_nil hrne
  subst hr'
  rw [containsSub]
  have h1 : isLead (str "``") ('`' :: (c :: r' ++ '`' :: B)) = false := by
    have hc : ¬ ('`' = c) := fun e => hr (by rw [e]; exact List.mem_cons_self _ _)
    simp [str, isLead, hc]
  have h2 : containsSub ('`' :: B) (str "``") = false := by
    rw [containsSub]
    have hl2 : isLead (str "``") ('`' :: B) = false := by
      cases B with
      | nil => decide
      | cons d B' =>
        have hd : ¬ ('`' = d) := by simpa [isLead] using hBhead
        simp [str, isLead, hd]
    rw [hl2, hB]
    rfl
  rw [h1, no_dd_append (c :: r') hr ('`' :: B) h2]
  rfl

theorem scanRewrite_head_match (att : Str → Option (Str × Str)) (c : Char) (s : Str)
    (rep out : Str) (h : att (c :: s) = some (rep, out)) (hlen : out.length < s.length + 1) :
    scanRewrite att (c :: s) = rep ++ scanRewrite att out := by
  rw [scanRewrite.eq_def]
  simp only [h, dif_pos hlen]

theorem scanRewrite_cons_none (att : Str → Option (Str × Str)) (c : Char) (s : Str)
    (h : att (c :: s) = none) : scanRewrite att (c :: s) = c :: scanRewrite att s := by
  rw [scanRewrite.eq_def]
  simp only [h]

theorem starRewrite_nil (pre post : Str) : starRewrite pre post [] = [] := by
  rw [starRewrite.eq_def]

theorem starRewrite_star (pre post : Str) (s : Str) :
    starRewrite pre post ('*' :: s) = '*' :: starRewrite pre post s := by
  rw [starRewrite.eq_def]
  dsimp only []
  rw [if_pos rfl]

theorem bsCapture_head (c : Char) (x : Str) (hc : c ≠ '\\') : bsCapture (c :: x) = c :: x := by
  unfold bsCapture
  have h1 : (c :: x).dropWhile (· = '\\') = c :: x := by
    rw [List.dropWhile_cons, if_neg (by simp [hc])]
  rw [h1, if_neg (by simp)]

theorem star_block (pre post : Str) (x : Str) (hne : x ≠ []) (hx : '*' ∉ x) :
    ∀ b : Str, (b = [] ∨ isLead ['*'] b = true) →
      starRewrite pre post (x ++ b) =
        pre ++ bsCapture x ++ post ++ starRewrite pre post b := by
  intro b hb
  obtain ⟨c, x', hx'⟩ := List.exists_cons_of_ne_nil hne
  subst hx'
  have hc : ¬ (c = '*') := fun e => hx (by rw [← e]; exact List.mem_cons_self _ _)
  rw [List.cons_append, starRewrite.eq_def]
  dsimp only []
  rw [if_neg hc]
  have htw : (c :: (x' ++ b)).takeWhile (· ≠ '*') = c :: x' := by
    rw [show c :: (x' ++ b) = (c :: x') ++ b from rfl,
      takeWhile_append_sat b (fun d hd => by
        simp only [ne_eq, decide_eq_true_eq]
        exact fun e => hx (e ▸ hd))]
    rcases hb with hb | hb
    · rw [hb]
      simp
    · cases b with
      | nil => simp
      | cons d b' =>
        have hd : d = '*' := by
          have := hb
          simp only [isLead, Bool.and_eq_true, decide_eq_true_eq] at this
          exact this.1.symm
        rw [List.takeWhile_cons, if_neg (by simp [hd])]
        simp
  rw [htw]
  have hdrop : (c :: (x' ++ b)).drop (c :: x').length = b := by
    rw [show c :: (x' ++ b) = (c :: x') ++ b from rfl]
    exact List.drop_left _ _
  rw [hdrop]

theorem strong_emph (s : Str) (hne : s ≠ []) (hstar : '*' ∉ s)
    (hhead : s.headD ' ' ≠ '\\') :
    emphasisRule (strongRule s) = str "***" ++ s ++ str "***" := by
  obtain ⟨c, s', hs'⟩ := List.exists_cons_of_ne_nil hne
  have hcap : bsCapture s = s := by
    rw [hs']
    exact bsCapture_head c s' (by rw [hs'] at hhead; simpa using hhead)
  have h1 : strongRule s = str "**" ++ s ++ str "**" := by
    unfold strongRule
    have hsb := star_block (str "**") (str "**") s hne hstar [] (Or.inl rfl)
    rw [List.append_nil] at hsb
    rw [hsb, hcap, starRewrite_nil, List.append_nil, List.append_assoc]
  have h2s : str "**" ++ s ++ str "**" = '*' :: '*' :: (s ++ '*' :: ['*']) := by
    simp [str]
  have h3 : starRewrite ['*'] ['*'] (s ++ '*' :: ['*']) =
      ['*'] ++ bsCapture s ++ ['*'] ++ starRewrite ['*'] ['*'] ('*' :: ['*']) :=
    star_block ['*'] ['*'] s hne hstar ('*' :: ['*']) (Or.inr (by decide))
  unfold emphasisRule
  rw [h1, h2s, starRewrite_star, starRewrite_star, h3, hcap,
    starRewrite_star, starRewrite_star, starRewrite_nil]
  simp [str]

theorem bulletLine_not_bs (c : Char) (l : Str) (hc : c ≠ '\\') :
    bulletLine (c :: l) = c :: l := by
  rw [bulletLine.eq_def]
  split
  · rename_i r heq
    rw [List.cons.injEq] at heq
    exact absurd heq.1 hc
  · rfl

theorem numberedLine_not_bs (c : Char) (l : Str) (hc : c ≠ '\\') :
    numberedLine (c :: l) = c :: l := by
  rw [numberedLine.eq_def]
  split
  · rename_i r heq
    rw [List.cons.injEq] at heq
    exact absurd heq.1 hc
  · rfl

theorem docAtt_none_star (pres : Bool) (z : Str) : docAtt pres ('*' :: z) = none := by
  unfold docAtt
  rw [if_neg]
  intro hl
  rw [show str ":doc:`" = ':' :: str "doc:`" from by decide] at hl
  simp [isLead] at hl

theorem convertDoc_eq (r : Str) (o : ConversionOptions)
    (h1 : r ≠ []) (h2 : '`' ∉ r) (h4 : '\n' ∉ r) (h5 : '*' ∉ r) :
    convertContentToMarkdown (str ":doc:`" ++ r ++ ['`']) o =
      str "***" ++
        (if o.preserveReferences then '[' :: r ++ str "](" ++ r ++ str ".md)" else r)
        ++ str "***" := by
  have hIne : (str ":doc:`" ++ r ++ ['`'] : Str) ≠ [] := by simp
  have hIstar : '*' ∉ (str ":doc:`" ++ r ++ ['`'] : Str) := by
    intro hm
    rcases List.mem_append.mp hm with hm | hm
    · rcases List.mem_append.mp hm with hm2 | hm2
      · exact absurd hm2 (by decide)
      · exact h5 hm2
    · exact absurd hm (by decide)
  have hIhead : (str ":doc:`" ++ r ++ ['`']).headD ' ' ≠ '\\' := by
    rw [show str ":doc:`" ++ r ++ ['`'] = ':' :: (str "doc:`" ++ (r ++ ['`'])) from by
      simp [str]]
    rw [List.headD_cons]
    decide
  have hSE : emphasisRule (strongRule (str ":doc:`" ++ r ++ ['`'])) =
      str "***" ++ (str ":doc:`" ++ r ++ ['`']) ++ str "***" :=
    strong_emph _ hIne hIstar hIhead
  have hnlJ : '\n' ∉ (str "***" ++ (str ":doc:`" ++ r ++ ['`']) ++ str "***" : Str) := by
    intro hm
    rcases List.mem_append.mp hm with hm | hm
    · rcases List.mem_append.mp hm with hm2 | hm2
      · exact absurd hm2 (by decide)
      · rcases List.mem_append.mp hm2 with hm3 | hm3
        · rcases List.mem_append.mp hm3 with hm4 | hm4
          · exact absurd hm4 (by decide)
          · exact h4 hm4
        · exact absurd hm3 (by decide)
    · exact absurd hm (by decide)
  have key1 : containsSub (str "***" ++ (str ":doc:`" ++ r ++ ['`']) ++ str "***")
      (str "``") = false := by
    rw [show str "***" ++ (str ":doc:`" ++ r ++ ['`']) ++ str "***" =
        str "***:doc:" ++ ('`' :: (r ++ '`' :: str "***")) from by simp [str]]
    exact no_dd_append (str "***:doc:") (by decide) _
      (no_dd_tick r (str "***") h2 h1 (by decide) (by decide))
  have hIC : inlineCodeRule (str "***" ++ (str ":doc:`" ++ r ++ ['`']) ++ str "***") =
      str "***" ++ (str ":doc:`" ++ r ++ ['`']) ++ str "***" :=
    scanRewrite_id_of_no_key _ _ inlineCodeAtt_key _ key1
  have hBul : bulletRule (str "***" ++ (str ":doc:`" ++ r ++ ['`']) ++ str "***") =
      str "***" ++ (str ":doc:`" ++ r ++ ['`']) ++ str "***" := by
    unfold bulletRule
    rw [splitOnChar_no_sep hnlJ]
    simp only [List.map_cons, List.map_nil]
    rw [intercalate_single]
    rw [show str "***" ++ (str ":doc:`" ++ r ++ ['`']) ++ str "***" =
        '*' :: (str "**" ++ (str ":doc:`" ++ r ++ ['`']) ++ str "***") from by simp [str]]
    rw [bulletLine_not_bs '*' _ (by decide)]
  have hNum : numberedRule (str "***" ++ (str ":doc:`" ++ r ++ ['`']) ++ str "***") =
      str "***" ++ (str ":doc:`" ++ r ++ ['`']) ++ str "***" := by
    unfold numberedRule
    rw [splitOnChar_no_sep hnlJ]
    simp only [List.map_cons, List.map_nil]
    rw [intercalate_single]
    rw [show str "***" ++ (str ":doc:`" ++ r ++ ['`']) ++ str "***" =
        '*' :: (str "**" ++ (str ":doc:`" ++ r ++ ['`']) ++ str "***") from by simp [str]]
    rw [numberedLine_not_bs '*' _ (by decide)]
  have hatt : docAtt o.preserveReferences (str ":doc:`" ++ r ++ ('`' :: str "***")) =
      some ((if o.preserveReferences then '[' :: r ++ str "](" ++ r ++ str ".md)" else r),
        str "***") := by
    unfold docAtt
    rw [if_pos (by rw [List.append_assoc]; exact isLead_append _ _)]
    have h6 : (str ":doc:`").length = 6 := by decide
    have hdrop : (str ":doc:`" ++ r ++ ('`' :: str "***")).drop 6 = r ++ '`' :: str "***" := by
      rw [List.append_assoc, ← h6]
      exact List.drop_left _ _
    have htake : (r ++ '`' :: str "***").takeWhile (· ≠ '`') = r := by
      rw [takeWhile_append_sat ('`' :: str "***") (fun c hc => by
        simp only [ne_eq, decide_eq_true_eq]
        exact fun e => h2 (e ▸ hc))]
      rw [List.takeWhile_cons, if_neg (by simp)]
      simp
    have hdropr : (r ++ '`' :: str "***").drop r.length = '`' :: str "***" :=
      List.drop_left _ _
    have hdropall : (r ++ '`' :: str "***").drop (r.length + 1) = str "***" := by
      rw [show r ++ '`' :: str "***" = (r ++ ['`']) ++ str "***" from by simp]
      rw [show r.length + 1 = (r ++ ['`']).length from by simp]
      exact List.drop_left _ _
    dsimp only []
    rw [hdrop, htake, hdropr, if_pos (by simp [h1, isLead]), hdropall]
  have hdocJ : docRule o.preserveReferences
      (str "***" ++ (str ":doc:`" ++ r ++ ['`']) ++ str "***") =
      str "***" ++
        (if o.preserveReferences then '[' :: r ++ str "](" ++ r ++ str ".md)" else r)
        ++ str "***" := by
    unfold docRule
    rw [show str "***" ++ (str ":doc:`" ++ r ++ ['`']) ++ str "***" =
        '*' :: ('*' :: ('*' :: (str ":doc:`" ++ r ++ ('`' :: str "***")))) from by simp [str]]
    rw [scanRewrite_cons_none _ _ _ (docAtt_none_star _ _),
      scanRewrite_cons_none _ _ _ (docAtt_none_star _ _),
      scanRewrite_cons_none _ _ _ (docAtt_none_star _ _)]
    obtain ⟨tail, htail⟩ : ∃ tail, str ":doc:`" ++ r ++ ('`' :: str "***") = ':' :: tail :=
      ⟨str "doc:`" ++ (r ++ ('`' :: str "***")), by simp [str]⟩
    have hlen : (str "***").length < tail.length + 1 := by
      have hcg := congrArg List.length htail
      rw [List.length_append, List.length_append, List.length_cons, List.length_cons] at hcg
      rw [show (str ":doc:`").length = 6 from by decide] at hcg
      rw [show (str "***").length = 3 from by decide] at hcg ⊢
      omega
    rw [htail] at hatt ⊢
    rw [scanRewrite_head_match _ _ _ _ _ hatt hlen]
    rw [scanRewrite_id_of_no_key _ _ (docAtt_key _) _ (by decide)]
    simp [str]
  have hnb : '`' ∉ (str "***" ++
      (if o.preserveReferences then '[' :: r ++ str "](" ++ r ++ str ".md)" else r)
      ++ str "***" : Str) := by
    intro hm
    rcases List.mem_append.mp hm with hm | hm
    · rcases List.mem_append.mp hm with hm2 | hm2
      · exact absurd hm2 (by decide)
      · by_cases hp : o.preserveReferences
        · rw [if_pos hp] at hm2
          rcases List.mem_cons.mp hm2 with hm3 | hm3
          · exact absurd hm3 (by decide)
          rcases List.mem_append.mp hm3 with hm4 | hm4
          · rcases List.mem_append.mp hm4 with hm5 | hm5
            · rcases List.mem_append.mp hm5 with hm6 | hm6
              · exact h2 hm6
              · exact absurd hm6 (by decide)
            · exact h2 hm5
          · exact absurd hm4 (by decide)
        · rw [if_neg hp] at hm2
          exact h2 hm2
    · exact absurd hm (by decide)
  have hExt : extLinkRule (str "***" ++
      (if o.preserveReferences then '[' :: r ++ str "](" ++ r ++ str ".md)" else r)
      ++ str "***") =
      str "***" ++
        (if o.preserveReferences then '[' :: r ++ str "](" ++ r ++ str ".md)" else r)
        ++ str "***" :=
    scanRewrite_id_of_no_key _ _ extLinkAtt_key _
      (containsSub_eq_false_of_not_mem (by decide) hnb)
  have hRef : refRule o.preserveReferences (str "***" ++
      (if o.preserveReferences then '[' :: r ++ str "](" ++ r ++ str ".md)" else r)
      ++ str "***") =
      str "***" ++
        (if o.preserveReferences then '[' :: r ++ str "](" ++ r ++ str ".md)" else r)
        ++ str "***" :=
    scanRewrite_id_of_no_key _ _ (refAtt_key _) _
      (containsSub_eq_false_of_not_mem (by decide) hnb)
  unfold convertContentToMarkdown codeBlockRule
  rw [hSE, hIC, hBul, hNum, hdocJ, hExt, hRef]
  apply trimStr_eq_self
  · right
    rw [show str "***" ++
        (if o.preserveReferences then '[' :: r ++ str "](" ++ r ++ str ".md)" else r)
        ++ str "***" =
        '*' :: (str "**" ++
          (if o.preserveReferences then '[' :: r ++ str "](" ++ r ++ str ".md)" else r)
          ++ str "***") from by simp [str]]
    rw [List.headD_cons]
    decide
  · right
    rw [show str "***" ++
        (if o.preserveReferences then '[' :: r ++ str "](" ++ r ++ str ".md)" else r)
        ++ str "***" =
        (str "***" ++
          (if o.preserveReferences then '[' :: r ++ str "](" ++ r ++ str ".md)" else r)
          ++ str "**") ++ ['*'] from by simp [str]]
    rw [List.getLastD_concat]
    decide

/-- C2, amended.  Rendering a free-standing `:doc:` reference whose
inner text `r` contains no backtick, no newline and no asterisk: the
strong and emphasis rewrites — whose literal patterns `/\\*\\*([^*]+)\\*\\*/`
and `/\\*([^*]+)\\*/` wrap every asterisk-free run — first turn the whole
text into `***:doc:`r`***`; then the `:doc:` rewrite replaces the
backtick-quoted reference, using the WHOLE quoted text `r` for both the
link label and the target when `preserveReferences` is set (a
`Target<label>` form is not split apart), or the bare text `r`
otherwise; the net output is the result wrapped in `***`. -/
theorem c2_doc_reference_rendering (r : Str) (o : ConversionOptions)
    (h1 : r ≠ []) (h2 : '`' ∉ r) (h4 : '\n' ∉ r) (h5 : '*' ∉ r) :
    convertContentToMarkdown (str ":doc:`" ++ r ++ ['`']) o =
      str "***" ++
        (if o.preserveReferences then '[' :: r ++ str "](" ++ r ++ str ".md)" else r)
        ++ str "***" :=
  convertDoc_eq r o h1 h2 h4 h5

/-- C2, counterexample.  On the spec's own scenario input
``:doc:`Target<label>``` with `preserveReferences = true` the
converter's output does NOT contain `[label](label.md)`: the whole
quoted text is used verbatim (and the literal strong/emphasis rewrites
add a `***` wrapping), giving `***[Target<label>](Target<label>.md)***`;
with `preserveReferences = false` the output is `***Target<label>***`,
not the bare label `label`. -/
theorem c2_counterexample :
    containsSub (convertContentToMarkdown (str ":doc:`Target<label>`") ⟨true⟩)
        (str "[label](label.md)") = false ∧
      convertContentToMarkdown (str ":doc:`Target<label>`") ⟨true⟩ =
        str "***[Target<label>](Target<label>.md)***" ∧
      convertContentToMarkdown (str ":doc:`Target<label>`") ⟨false⟩ =
        str "***Target<label>***" := by
  have e1 : convertContentToMarkdown (str ":doc:`Target<label>`") ⟨true⟩ =
      str "***" ++
        (if (ConversionOptions.mk true).preserveReferences then
          '[' :: str "Target<label>" ++ str "](" ++ str "Target<label>" ++ str ".md)"
        else str "Target<label>")
        ++ str "***" := by
    rw [show str ":doc:`Target<label>`" =
      str ":doc:`" ++ str "Target<label>" ++ ['`'] from by decide]
    exact convertDoc_eq (str "Target<label>") ⟨true⟩ (by decide) (by decide) (by decide)
      (by decide)
  have e2 : convertContentToMarkdown (str ":doc:`Target<label>`") ⟨false⟩ =
      str "***" ++
        (if (ConversionOptions.mk false).preserveReferences then
          '[' :: str "Target<label>" ++ str "](" ++ str "Target<label>" ++ str ".md)"
        else str "Target<label>")
        ++ str "***" := by
    rw [show str ":doc:`Target<label>`" =
      str ":doc:`" ++ str "Target<label>" ++ ['`'] from by decide]
    exact convertDoc_eq (str "Target<label>") ⟨false⟩ (by decide) (by decide) (by decide)
      (by decide)
  refine ⟨?_, ?_, ?_⟩
  · rw [e1]
    decide
  · rw [e1]
    decide
  · rw [e2]
    decide

/-- Witness for the amended C2 at the scenario's reference text. -/
theorem c2_doc_reference_rendering_witness :
    (str "Target<label>" ≠ [] ∧ '`' ∉ str "Target<label>" ∧ '\n' ∉ str "Target<label>" ∧
        '*' ∉ str "Target<label>") ∧
      convertContentToMarkdown (str ":doc:`" ++ str "Target<label>" ++ ['`'])
          (ConversionOptions.mk true) =
        str "***" ++
          (if (ConversionOptions.mk true).preserveReferences then
            '[' :: str "Target<label>" ++ str "](" ++ str "Target<label>" ++ str ".md)"
          else str "Target<label>")
          ++ str "***" :=
  ⟨⟨by decide, by decide, by decide, by decide⟩,
    c2_doc_reference_rendering (str "Target<label>") (ConversionOptions.mk true)
      (by decide) (by decide) (by decide) (by decide)⟩

theorem dropWhile_append_sat {p : Char → Bool} {a : Str} (b : Str)
    (h : ∀ c ∈ a, p c = true) : (a ++ b).dropWhile p = b.dropWhile p := by
  induction a with
  | nil => rfl
  | cons c cs ih =>
    rw [List.cons_append, List.dropWhile_cons, if_pos (h c (by simp))]
    exact ih (fun x hx => h x (by simp [hx]))

theorem trimStr_ws_prefix {w b : Str} (hw : ∀ c ∈ w, isWs c = true)
    (h1 : b = [] ∨ isWs (b.headD ' ') = false)
    (h2 : b = [] ∨ isWs (b.getLastD ' ') = false) :
    trimStr (w ++ b) = b := by
  have he : trimStr (w ++ b) = trimStr b := by
    unfold trimStr
    rw [dropWhile_append_sat b hw]
  rw [he]
  exact trimStr_eq_self h1 h2

theorem toctreeAtt_key : ∀ u, toctreeAtt u ≠ none → isLead (str ".. toctree::") u = true := by
  intro u h
  by_cases hl : isLead (str ".. toctree::") u = true
  · exact hl
  · exfalso
    apply h
    unfold toctreeAtt dirBlockMatch
    dsimp only []
    rw [show (str ".. " ++ str "toctree" ++ str "::") = str ".. toctree::" from by decide]
    rw [if_neg hl]

theorem autoAtt_key (name rep : Str) :
    ∀ u, autoAtt name rep u ≠ none → isLead (str ".. " ++ name ++ str "::") u = true := by
  intro u h
  by_cases hl : isLead (str ".. " ++ name ++ str "::") u = true
  · exact hl
  · exfalso
    apply h
    unfold autoAtt
    dsimp only []
    rw [if_neg hl]

theorem nlToQuote_id : ∀ x : Str, '\\' ∉ x → nlToQuote x = x := by
  intro x
  induction x with
  | nil => intro h; rfl
  | cons a as ih =>
    intro h
    have ha : a ≠ '\\' := fun e => h (by rw [← e]; exact List.mem_cons_self _ _)
    rw [nlToQuote.eq_def]
    split
    · rename_i s heq
      rw [List.cons.injEq] at heq
      exact absurd heq.1 ha
    · rename_i c s heq
      rw [List.cons.injEq] at heq
      rw [← heq.1, ← heq.2]
      rw [ih (fun hm => h (List.mem_cons_of_mem _ hm))]
    · rename_i heq
      exact absurd heq (by simp)

theorem findLazy_concat : ∀ x : Str, '\n' ∉ x → findLazy (x ++ ['\n']) = some (x, []) := by
  intro x
  induction x with
  | nil => intro h; decide
  | cons a as ih =>
    intro h
    have ha : ¬ (a = '\n') := fun e => h (by rw [← e]; exact List.mem_cons_self _ _)
    rw [List.cons_append, findLazy]
    rw [if_neg (by simp [ha])]
    rw [ih (fun hm => h (List.mem_cons_of_mem _ hm))]

theorem preprocess_note_eq (body : Str) (hne : body ≠ []) (hnl : '\n' ∉ body)
    (hbs : '\\' ∉ body)
    (hh : isWs (body.headD ' ') = false) (hlst : isWs (body.getLastD ' ') = false)
    (h5 : containsSub (str ".. note::\n   " ++ body ++ str "\n") (str ".. toctree::") = false)
    (h6 : containsSub (str ".. note::\n   " ++ body ++ str "\n") (str ".. automodule::") = false)
    (h7 : containsSub (str ".. note::\n   " ++ body ++ str "\n") (str ".. autoclass::") = false) :
    preprocessRST (str ".. note::\n   " ++ body ++ str "\n") =
      str "> ℹ️ **NOTE**" ++ '\\' :: 'n' :: '>' :: '\\' :: 'n' :: '>' :: ' ' ::
        (body ++ '\\' :: 'n' :: str "\n") := by
  have htoc : toctreeRule (str ".. note::\n   " ++ body ++ str "\n") =
      str ".. note::\n   " ++ body ++ str "\n" :=
    scanRewrite_id_of_no_key _ _ toctreeAtt_key _ h5
  rw [show str ".. automodule::" = str ".. " ++ str "automodule" ++ str "::" from by decide] at h6
  rw [show str ".. autoclass::" = str ".. " ++ str "autoclass" ++ str "::" from by decide] at h7
  have hmod : automoduleRule (str ".. note::\n   " ++ body ++ str "\n") =
      str ".. note::\n   " ++ body ++ str "\n" :=
    scanRewrite_id_of_no_key _ _ (autoAtt_key (str "automodule") (str "AUTO-MODULE")) _ h6
  have hcls : autoclassRule (str ".. note::\n   " ++ body ++ str "\n") =
      str ".. note::\n   " ++ body ++ str "\n" :=
    scanRewrite_id_of_no_key _ _ (autoAtt_key (str "autoclass") (str "AUTO-CLASS")) _ h7
  have hlead : isLead (str ".. " ++ str "note" ++ str "::")
      (str ".. note::\n   " ++ body ++ str "\n") = true := by
    rw [show str ".. note::\n   " = str ".. note::" ++ str "\n   " from by decide]
    rw [show (str ".. " ++ str "note" ++ str "::") = str ".. note::" from by decide]
    rw [List.append_assoc, List.append_assoc]
    exact isLead_append _ _
  have hfind : admFind admTypes (str ".. note::\n   " ++ body ++ str "\n") =
      some (str "note", str "NOTE", str "ℹ️") := by
    simp only [admTypes, admFind]
    rw [if_pos hlead]
  have hX : (str ".. note::\n   " ++ body ++ str "\n").drop
      (str ".. " ++ str "note" ++ str "::").length = str "\n   " ++ (body ++ str "\n") := by
    rw [show (str ".. " ++ str "note" ++ str "::").length = (str ".. note::").length from
      by decide]
    rw [show str ".. note::\n   " ++ body ++ str "\n" =
      str ".. note::" ++ (str "\n   " ++ (body ++ str "\n")) from by simp [str]]
    exact List.drop_left _ _
  obtain ⟨bh, bt, hb⟩ := List.exists_cons_of_ne_nil hne
  have hbh : isWs bh = false := by rw [hb] at hh; simpa using hh
  have hW : (str "\n   " ++ (body ++ str "\n")).takeWhile isWs = str "\n   " := by
    rw [takeWhile_append_sat _ (by decide)]
    rw [hb, List.cons_append, List.takeWhile_cons]
    simp [hbh]
  have hR : (str "\n   " ++ (body ++ str "\n")).drop (str "\n   ").length = body ++ str "\n" :=
    List.drop_left _ _
  have hwc : wsNLCandidates (str "\n   " ++ (body ++ str "\n")) =
      [str "   " ++ (body ++ str "\n")] := by
    unfold wsNLCandidates
    dsimp only []
    rw [hW, hR]
    rw [show nlSuffixes (str "\n   ") = [str "   "] from by decide]
    rfl
  have hnl2 : '\n' ∉ str "   " ++ body := by
    intro hm
    rcases List.mem_append.mp hm with hm | hm
    · exact absurd hm (by decide)
    · exact hnl hm
  have hfl : findLazy (str "   " ++ (body ++ str "\n")) = some (str "   " ++ body, []) := by
    rw [show (str "   " ++ (body ++ str "\n")) = (str "   " ++ body) ++ ['\n'] from by
      rw [List.append_assoc]
      rw [show (['\n'] : Str) = str "\n" from by decide]]
    exact findLazy_concat _ hnl2
  have htc : tryCandidates [str "   " ++ (body ++ str "\n")] =
      some (str "   " ++ body, []) := by
    rw [tryCandidates, hfl]
  have hdbm : dirBlockMatch (str "note") (str ".. note::\n   " ++ body ++ str "\n") =
      some (str "   " ++ body, ['\n']) := by
    unfold dirBlockMatch
    dsimp only []
    rw [if_pos hlead, hX, hwc, htc]
  have htrim : trimStr (str "   " ++ body) = body :=
    trimStr_ws_prefix (by decide) (Or.inr hh) (Or.inr hlst)
  have hatt : admAtt (str ".. note::\n   " ++ body ++ str "\n") =
      some (str "> " ++ str "ℹ️" ++ str " **" ++ str "NOTE" ++ str "**"
          ++ '\\' :: 'n' :: '>' :: '\\' :: 'n' :: '>' :: ' ' :: body ++ ['\\', 'n'],
        ['\n']) := by
    unfold admAtt
    rw [hfind]
    dsimp only []
    rw [hdbm]
    dsimp only []
    rw [htrim, nlToQuote_id body hbs]
  have hsingle : scanRewrite admAtt ['\n'] = ['\n'] :=
    scanRewrite_id admAtt ['\n'] (by
      intro t ht
      have hcase : t = [] ∨ t = ['\n'] := by
        rcases ht with ⟨u, hu⟩
        cases u with
        | nil => right; simpa using hu
        | cons a as =>
          left
          have hlen := congrArg List.length hu
          rw [List.length_append, List.length_cons,
            show (['\n'] : Str).length = 1 from rfl] at hlen
          exact List.length_eq_zero.mp (by omega)
      rcases hcase with h | h <;> rw [h] <;> decide)
  have hshape : str ".. note::\n   " ++ body ++ str "\n" =
      '.' :: (str ". note::\n   " ++ (body ++ str "\n")) := by simp [str]
  have hlen1 : (['\n'] : Str).length <
      (str ". note::\n   " ++ (body ++ str "\n")).length + 1 := by
    rw [List.length_append]
    rw [show (str ". note::\n   ").length = 12 from by decide]
    rw [show (['\n'] : Str).length = 1 from rfl]
    omega
  have hmain : admonitionRule (str ".. note::\n   " ++ body ++ str "\n") =
      str "> " ++ str "ℹ️" ++ str " **" ++ str "NOTE" ++ str "**"
        ++ '\\' :: 'n' :: '>' :: '\\' :: 'n' :: '>' :: ' ' :: body ++ ['\\', 'n'] ++ ['\n'] := by
    unfold admonitionRule
    rw [hshape] at hatt ⊢
    rw [scanRewrite_head_match _ _ _ _ _ hatt hlen1]
    rw [hsingle]
  unfold preprocessRST
  rw [htoc, hmod, hcls, hmain]
  simp [str]

/-- C9, amended.  For a `.. note::` admonition directive followed by an
indented body line, the pre-processing rewrite `preprocessRST` — which
runs before the structural parser in `convertToMarkdown` — matches the
directive (the matching side of the rule is an ordinary real-escape
regex) but its replacement template's `\\n` sequences are literal, so
the "blockquote" comes out on ONE real line: the output is
`> ℹ️ **NOTE**` followed by the literal two-character sequences `\n>`,
`\n> `, the body, a literal `\n`, and only then the original real
newline; no real-newline blockquote lines are produced. -/
theorem c9_note_admonition (body : Str) (hne : body ≠ []) (hnl : '\n' ∉ body)
    (hbs : '\\' ∉ body)
    (hh : isWs (body.headD ' ') = false) (hlst : isWs (body.getLastD ' ') = false)
    (h5 : containsSub (str ".. note::\n   " ++ body ++ str "\n") (str ".. toctree::") = false)
    (h6 : containsSub (str ".. note::\n   " ++ body ++ str "\n") (str ".. automodule::") = false)
    (h7 : containsSub (str ".. note::\n   " ++ body ++ str "\n") (str ".. autoclass::") = false) :
    preprocessRST (str ".. note::\n   " ++ body ++ str "\n") =
        str "> ℹ️ **NOTE**" ++ '\\' :: 'n' :: '>' :: '\\' :: 'n' :: '>' :: ' ' ::
          (body ++ '\\' :: 'n' :: str "\n") ∧
      containsSub (preprocessRST (str ".. note::\n   " ++ body ++ str "\n"))
        (str "> ℹ️ **NOTE**") = true := by
  have hf := preprocess_note_eq body hne hnl hbs hh hlst h5 h6 h7
  refine ⟨hf, ?_⟩
  rw [hf]
  exact containsSub_of_isLead (isLead_append _ _)

/-- C9, counterexample.  On the spec's own scenario input
`".. note::\n   Remember this.\n"` the pre-processed output does NOT
contain the real-newline-terminated blockquote marker line
`"> ℹ️ **NOTE**\n"` (after `**NOTE**` comes a literal backslash, not a
newline): the replacement template's `\\n` escapes are literal, so the
entire "blockquote" sits on a single real line. -/
theorem c9_counterexample :
    containsSub (preprocessRST (str ".. note::\n   Remember this.\n"))
        (str "> ℹ️ **NOTE**\n") = false ∧
      preprocessRST (str ".. note::\n   Remember this.\n") =
        str "> ℹ️ **NOTE**" ++ '\\' :: 'n' :: '>' :: '\\' :: 'n' :: '>' :: ' ' ::
          (str "Remember this." ++ '\\' :: 'n' :: str "\n") := by
  have hf : preprocessRST (str ".. note::\n   Remember this.\n") =
      str "> ℹ️ **NOTE**" ++ '\\' :: 'n' :: '>' :: '\\' :: 'n' :: '>' :: ' ' ::
        (str "Remember this." ++ '\\' :: 'n' :: str "\n") := by
    rw [show str ".. note::\n   Remember this.\n" =
      str ".. note::\n   " ++ str "Remember this." ++ str "\n" from by decide]
    exact preprocess_note_eq (str "Remember this.") (by decide) (by decide) (by decide)
      (by decide) (by decide) (by decide) (by decide) (by decide)
  refine ⟨?_, hf⟩
  rw [hf]
  decide

/-- Witness for the amended C9 at the scenario's body text. -/
theorem c9_note_admonition_witness :
    (str "Remember this." ≠ [] ∧ '\n' ∉ str "Remember this." ∧
        '\\' ∉ str "Remember this.") ∧
      (preprocessRST (str ".. note::\n   " ++ str "Remember this." ++ str "\n") =
          str "> ℹ️ **NOTE**" ++ '\\' :: 'n' :: '>' :: '\\' :: 'n' :: '>' :: ' ' ::
            (str "Remember this." ++ '\\' :: 'n' :: str "\n") ∧
        containsSub (preprocessRST (str ".. note::\n   " ++ str "Remember this." ++ str "\n"))
          (str "> ℹ️ **NOTE**") = true) :=
  ⟨⟨by decide, by decide, by decide⟩,
    c9_note_admonition (str "Remember this.") (by decide) (by decide) (by decide) (by decide)
      (by decide) (by decide) (by decide) (by decide)⟩

theorem clampAux_cons_neg (c : Char) (s : Str) (b : Bool)
    (hg : ¬(b = true ∧ 5 ≤ ((c :: s).takeWhile (· = '#')).length ∧
      isLead ['\\'] ((c :: s).drop ((c :: s).takeWhile (· = '#')).length) ∧
      (((c :: s).drop ((c :: s).takeWhile (· = '#')).length).drop 1).takeWhile (· = 's')
        ≠ [])) :
    clampAux (c :: s) b = c :: clampAux s (c = '\n') := by
  rw [clampAux.eq_def]
  dsimp only []
  rw [dif_neg hg]

theorem clampAux_cons_pos (c : Char) (s : Str) (b : Bool)
    (hg : b = true ∧ 5 ≤ ((c :: s).takeWhile (· = '#')).length ∧
      isLead ['\\'] ((c :: s).drop ((c :: s).takeWhile (· = '#')).length) ∧
      (((c :: s).drop ((c :: s).takeWhile (· = '#')).length).drop 1).takeWhile (· = 's')
        ≠ []) :
    clampAux (c :: s) b = str "#### " ++
      clampAux
        ((((c :: s).drop ((c :: s).takeWhile (· = '#')).length).drop 1).drop
          ((((c :: s).drop ((c :: s).takeWhile (· = '#')).length).drop 1).takeWhile
            (· = 's')).length)
        false := by
  rw [clampAux.eq_def]
  dsimp only []
  rw [dif_pos hg]

theorem clampFreeB_cons_neg (c : Char) (s : Str) (b : Bool)
    (hg : ¬(b = true ∧ 5 ≤ ((c :: s).takeWhile (· = '#')).length ∧
      isLead ['\\'] ((c :: s).drop ((c :: s).takeWhile (· = '#')).length) ∧
      (((c :: s).drop ((c :: s).takeWhile (· = '#')).length).drop 1).takeWhile (· = 's')
        ≠ [])) :
    clampFreeB (c :: s) b = clampFreeB s (c = '\n') := by
  rw [clampFreeB]
  rw [if_neg hg]

theorem clampFreeB_cons_pos (c : Char) (s : Str) (b : Bool)
    (hg : b = true ∧ 5 ≤ ((c :: s).takeWhile (· = '#')).length ∧
      isLead ['\\'] ((c :: s).drop ((c :: s).takeWhile (· = '#')).length) ∧
      (((c :: s).drop ((c :: s).takeWhile (· = '#')).length).drop 1).takeWhile (· = 's')
        ≠ []) :
    clampFreeB (c :: s) b = false := by
  rw [clampFreeB]
  rw [if_pos hg]

theorem clampFreeB_false_step (c : Char) (s : Str) :
    clampFreeB (c :: s) false = clampFreeB s (c = '\n') :=
  clampFreeB_cons_neg c s false (by simp)

theorem clampAux_false_step (c : Char) (s : Str) :
    clampAux (c :: s) false = c :: clampAux s (c = '\n') :=
  clampAux_cons_neg c s false (by simp)

theorem clampFreeB_step_nohash (c : Char) (u : Str) (b : Bool) (hc : c ≠ '#') :
    clampFreeB (c :: u) b = clampFreeB u (c = '\n') := by
  apply clampFreeB_cons_neg
  rintro ⟨-, h5, -⟩
  rw [List.takeWhile_cons, if_neg (by simp [hc])] at h5
  simp at h5

theorem clampFreeB_nl (u : Str) (b : Bool) : clampFreeB ('\n' :: u) b = clampFreeB u true := by
  rw [clampFreeB_step_nohash '\n' u b (by decide)]
  simp

theorem clampAux_no_nl : ∀ r : Str, '\n' ∉ r → clampAux r false = r := by
  intro r
  induction r with
  | nil => intro h; rw [clampAux.eq_def]
  | cons c cs ih =>
    intro h
    have hc : c ≠ '\n' := fun e => h (by rw [← e]; exact List.mem_cons_self _ _)
    rw [clampAux_false_step]
    rw [show (decide (c = '\n')) = false from by simp [hc]]
    rw [ih (fun hm => h (List.mem_cons_of_mem _ hm))]

theorem clampAux_line : ∀ L R : Str, '\n' ∉ L →
    clampAux (L ++ '\n' :: R) false = L ++ '\n' :: clampAux R true := by
  intro L
  induction L with
  | nil =>
    intro R h
    rw [List.nil_append, clampAux_false_step]
    simp
  | cons c cs ih =>
    intro R h
    have hc : c ≠ '\n' := fun e => h (by rw [← e]; exact List.mem_cons_self _ _)
    rw [List.cons_append, clampAux_false_step]
    rw [show (decide (c = '\n')) = false from by simp [hc]]
    rw [ih R (fun hm => h (List.mem_cons_of_mem _ hm))]
    rfl

theorem clampFree_no_nl : ∀ r : Str, '\n' ∉ r → clampFreeB r false = true := by
  intro r
  induction r with
  | nil => intro h; rfl
  | cons c cs ih =>
    intro h
    have hc : c ≠ '\n' := fun e => h (by rw [← e]; exact List.mem_cons_self _ _)
    rw [clampFreeB_false_step]
    rw [show (decide (c = '\n')) = false from by simp [hc]]
    exact ih (fun hm => h (List.mem_cons_of_mem _ hm))

theorem clampFreeB_line : ∀ L Z : Str, '\n' ∉ L →
    clampFreeB (L ++ '\n' :: Z) false = clampFreeB Z true := by
  intro L
  induction L with
  | nil =>
    intro Z h
    rw [List.nil_append, clampFreeB_false_step]
    simp
  | cons c cs ih =>
    intro Z h
    have hc : c ≠ '\n' := fun e => h (by rw [← e]; exact List.mem_cons_self _ _)
    rw [List.cons_append, clampFreeB_false_step]
    rw [show (decide (c = '\n')) = false from by simp [hc]]
    exact ih Z (fun hm => h (List.mem_cons_of_mem _ hm))

theorem clampFreeB_skip : ∀ L Z : Str, '\n' ∉ L →
    clampFreeB (L ++ Z) false = clampFreeB Z false := by
  intro L
  induction L with
  | nil => intro Z h; rfl
  | cons c cs ih =>
    intro Z h
    have hc : c ≠ '\n' := fun e => h (by rw [← e]; exact List.mem_cons_self _ _)
    rw [List.cons_append, clampFreeB_false_step]
    rw [show (decide (c = '\n')) = false from by simp [hc]]
    exact ih Z (fun hm => h (List.mem_cons_of_mem _ hm))

theorem clampAux_of_free : ∀ (u : Str) (b : Bool), clampFreeB u b = true → clampAux u b = u := by
  intro u
  induction u with
  | nil => intro b h; rw [clampAux.eq_def]
  | cons c cs ih =>
    intro b h
    by_cases hg : b = true ∧ 5 ≤ ((c :: cs).takeWhile (· = '#')).length ∧
        isLead ['\\'] ((c :: cs).drop ((c :: cs).takeWhile (· = '#')).length) ∧
        (((c :: cs).drop ((c :: cs).takeWhile (· = '#')).length).drop 1).takeWhile (· = 's')
          ≠ []
    · rw [clampFreeB_cons_pos c cs b hg] at h
      exact absurd h (by simp)
    · rw [clampFreeB_cons_neg c cs b hg] at h
      rw [clampAux_cons_neg c cs b hg, ih _ h]

theorem takeWhile_stop (p : Char → Bool) (A : Str) (d : Char) (B : Str)
    (hA : ∀ a ∈ A, p a = true) (hd : p d = false) :
    (A ++ d :: B).takeWhile p = A ∧ (A ++ d :: B).drop A.length = d :: B := by
  constructor
  · rw [takeWhile_append_sat _ hA, List.takeWhile_cons, hd]
    simp
  · exact List.drop_left _ _

theorem split_at_first_fail (p : Char → Bool) {P : Str} {x : Char} (hx : x ∈ P)
    (hpx : p x = false) :
    ∃ A d B, P = A ++ d :: B ∧ (∀ a ∈ A, p a = true) ∧ p d = false := by
  have hne : P.dropWhile p ≠ [] := by
    intro h0
    have h1 := List.takeWhile_append_dropWhile p P
    rw [h0, List.append_nil] at h1
    have h2 : x ∈ P.takeWhile p := by rw [h1]; exact hx
    have h3 := List.mem_takeWhile_imp h2
    rw [hpx] at h3
    exact Bool.false_ne_true h3
  obtain ⟨d, B, hdB⟩ := List.exists_cons_of_ne_nil hne
  refine ⟨P.takeWhile p, d, B, ?_, fun a ha => List.mem_takeWhile_imp ha,
    dropWhile_head_not _ hdB⟩
  conv_lhs => rw [← List.takeWhile_append_dropWhile p P, hdB]

theorem clampGuard_iff {A : Str} {d : Char} (B : Str) (b : Bool)
    (hA : ∀ a ∈ A, a = '#') (hd : d ≠ '#') :
    ((b = true ∧ 5 ≤ ((A ++ d :: B).takeWhile (· = '#')).length ∧
        isLead ['\\'] ((A ++ d :: B).drop ((A ++ d :: B).takeWhile (· = '#')).length) ∧
        (((A ++ d :: B).drop ((A ++ d :: B).takeWhile (· = '#')).length).drop 1).takeWhile
          (· = 's') ≠ [])
      ↔ (b = true ∧ 5 ≤ A.length ∧ d = '\\' ∧ B.takeWhile (· = 's') ≠ [])) := by
  obtain ⟨h1, h2⟩ := takeWhile_stop (· = '#') A d B (fun a ha => by simp [hA a ha])
    (by simp [hd])
  rw [h1, h2]
  rw [show ((d :: B).drop 1) = B from rfl]
  constructor
  · rintro ⟨hb, h5, hl, hw⟩
    refine ⟨hb, h5, ?_, hw⟩
    have : ('\\' : Char) = d := by
      simpa [isLead] using hl
    exact this.symm
  · rintro ⟨hb, h5, hdd, hw⟩
    subst hdd
    exact ⟨hb, h5, by simp [isLead], hw⟩

theorem clampGuard_line_mono (c : Char) (L : Str) (b : Bool) (Y1 Y2 : Str)
    (hG : b = true ∧ 5 ≤ ((c :: (L ++ '\n' :: Y1)).takeWhile (· = '#')).length ∧
      isLead ['\\'] ((c :: (L ++ '\n' :: Y1)).drop
        ((c :: (L ++ '\n' :: Y1)).takeWhile (· = '#')).length) ∧
      (((c :: (L ++ '\n' :: Y1)).drop
        ((c :: (L ++ '\n' :: Y1)).takeWhile (· = '#')).length).drop 1).takeWhile (· = 's')
        ≠ []) :
    b = true ∧ 5 ≤ ((c :: (L ++ '\n' :: Y2)).takeWhile (· = '#')).length ∧
      isLead ['\\'] ((c :: (L ++ '\n' :: Y2)).drop
        ((c :: (L ++ '\n' :: Y2)).takeWhile (· = '#')).length) ∧
      (((c :: (L ++ '\n' :: Y2)).drop
        ((c :: (L ++ '\n' :: Y2)).takeWhile (· = '#')).length).drop 1).takeWhile (· = 's')
        ≠ [] := by
  obtain ⟨A, d2, B0, hPeq, hA2, hd2⟩ := split_at_first_fail (· = '#')
    (show '\n' ∈ c :: (L ++ ['\n']) by simp) (by simp)
  have hA2x : ∀ a ∈ A, a = '#' := fun a ha => by simpa using hA2 a ha
  have hd2x : d2 ≠ '#' := by simpa using hd2
  have hshape : ∀ Y : Str, c :: (L ++ '\n' :: Y) = A ++ d2 :: (B0 ++ Y) := by
    intro Y
    have hY : c :: (L ++ '\n' :: Y) = (c :: (L ++ ['\n'])) ++ Y := by simp
    rw [hY, hPeq]
    simp
  rw [hshape Y1, clampGuard_iff (B0 ++ Y1) b hA2x hd2x] at hG
  rw [hshape Y2, clampGuard_iff (B0 ++ Y2) b hA2x hd2x]
  obtain ⟨hb, h5, hdd, hw⟩ := hG
  refine ⟨hb, h5, hdd, ?_⟩
  have hnlB : '\n' ∈ B0 := by
    have hm : '\n' ∈ A ++ d2 :: B0 := by rw [← hPeq]; simp
    rcases List.mem_append.mp hm with hm | hm
    · exact absurd (hA2x _ hm) (by decide)
    · rcases List.mem_cons.mp hm with hm | hm
      · exact absurd (hm.trans hdd) (by decide)
      · exact hm
  obtain ⟨A1, e, B1, hB0eq, hA1, he⟩ := split_at_first_fail (· = 's') hnlB (by decide)
  have htw : ∀ Y : Str, (B0 ++ Y).takeWhile (· = 's') = A1 := by
    intro Y
    rw [hB0eq]
    rw [show (A1 ++ e :: B1) ++ Y = A1 ++ e :: (B1 ++ Y) from by simp]
    exact (takeWhile_stop (· = 's') A1 e (B1 ++ Y) hA1 he).1
  rw [htw Y2]
  rw [htw Y1] at hw
  exact hw

theorem clampFreeB_hash4 (Z : Str) (b : Bool) :
    clampFreeB (str "#### " ++ Z) b = clampFreeB Z false := by
  rw [show str "#### " ++ Z = '#' :: ('#' :: ('#' :: ('#' :: (' ' :: Z)))) from by simp [str]]
  rw [clampFreeB_cons_neg _ _ _ (by
    rintro ⟨-, h5, -⟩
    simp [List.takeWhile_cons] at h5)]
  simp [clampFreeB_false_step]

theorem clampFree_ind : ∀ n : Nat,
    (∀ r : Str, r.length ≤ n → clampFreeB (clampAux r false) false = true) ∧
    (∀ r : Str, r.length ≤ n → clampFreeB (clampAux r true) true = true) := by
  intro n
  induction n with
  | zero =>
    refine ⟨?_, ?_⟩ <;>
      (intro r hr
       have hr0 : r = [] := List.length_eq_zero.mp (Nat.le_zero.mp hr)
       subst hr0
       rw [clampAux.eq_def]
       rfl)
  | succ n ih =>
    have hfalse : ∀ r : Str, r.length ≤ n + 1 →
        clampFreeB (clampAux r false) false = true := by
      intro r hr
      by_cases hnl : '\n' ∈ r
      · obtain ⟨A, d, B, hPeq, hA, hd⟩ := split_at_first_fail (· ≠ '\n') hnl (by simp)
        have hdnl : d = '\n' := by simpa using hd
        subst hdnl
        have hAnl : '\n' ∉ A := fun hm => by simpa using hA _ hm
        rw [hPeq, clampAux_line A B hAnl, clampFreeB_line A _ hAnl]
        have hBlen : B.length ≤ n := by
          have hc := congrArg List.length hPeq
          rw [List.length_append, List.length_cons] at hc
          omega
        exact ih.2 B hBlen
      · rw [clampAux_no_nl r hnl]
        exact clampFree_no_nl r hnl
    refine ⟨hfalse, ?_⟩
    intro r hr
    cases r with
    | nil =>
      rw [clampAux.eq_def]
      rfl
    | cons c s' =>
      by_cases hg : (true : Bool) = true ∧ 5 ≤ ((c :: s').takeWhile (· = '#')).length ∧
          isLead ['\\'] ((c :: s').drop ((c :: s').takeWhile (· = '#')).length) ∧
          (((c :: s').drop ((c :: s').takeWhile (· = '#')).length).drop 1).takeWhile (· = 's')
            ≠ []
      · rw [clampAux_cons_pos c s' true hg]
        rw [clampFreeB_hash4]
        have hlen2 : (((((c :: s').drop ((c :: s').takeWhile (· = '#')).length).drop 1).drop
            ((((c :: s').drop ((c :: s').takeWhile (· = '#')).length).drop 1).takeWhile
              (· = 's')).length)).length ≤ n := by
          have h5 := hg.2.1
          have hw1 : 0 < ((((c :: s').drop ((c :: s').takeWhile (· = '#')).length).drop
              1).takeWhile (· = 's')).length :=
            List.length_pos.mpr hg.2.2.2
          have hd1 : ((c :: s').drop ((c :: s').takeWhile (· = '#')).length).length
              = (c :: s').length - ((c :: s').takeWhile (· = '#')).length :=
            List.length_drop _ _
          have hd2 : (((c :: s').drop ((c :: s').takeWhile (· = '#')).length).drop 1).length
              = ((c :: s').drop ((c :: s').takeWhile (· = '#')).length).length - 1 :=
            List.length_drop _ _
          have hd3 : (((((c :: s').drop ((c :: s').takeWhile (· = '#')).length).drop 1).drop
              ((((c :: s').drop ((c :: s').takeWhile (· = '#')).length).drop 1).takeWhile
                (· = 's')).length)).length
              = (((c :: s').drop ((c :: s').takeWhile (· = '#')).length).drop 1).length -
                ((((c :: s').drop ((c :: s').takeWhile (· = '#')).length).drop 1).takeWhile
                  (· = 's')).length :=
            List.length_drop _ _
          rw [List.length_cons] at hd1 hr
          omega
        exact ih.1 _ hlen2
      · rw [clampAux_cons_neg c s' true hg]
        by_cases hc : c = '\n'
        · subst hc
          rw [show (decide ('\n' = '\n')) = true from by decide]
          rw [clampFreeB_nl]
          exact ih.2 s' (by rw [List.length_cons] at hr; omega)
        · rw [show (decide (c = '\n')) = false from by simp [hc]]
          by_cases hnl : '\n' ∈ s'
          · obtain ⟨L, d, R, hseq, hL, hdnl⟩ := split_at_first_fail (· ≠ '\n') hnl (by simp)
            have hdd : d = '\n' := by simpa using hdnl
            subst hdd
            have hLnl : '\n' ∉ L := fun hm => by simpa using hL _ hm
            rw [hseq, clampAux_line L R hLnl]
            have hgY : ¬((true : Bool) = true ∧
                5 ≤ ((c :: (L ++ '\n' :: clampAux R true)).takeWhile (· = '#')).length ∧
                isLead ['\\'] ((c :: (L ++ '\n' :: clampAux R true)).drop
                  ((c :: (L ++ '\n' :: clampAux R true)).takeWhile (· = '#')).length) ∧
                (((c :: (L ++ '\n' :: clampAux R true)).drop
                  ((c :: (L ++ '\n' :: clampAux R true)).takeWhile
                    (· = '#')).length).drop 1).takeWhile (· = 's') ≠ []) := by
              intro hG
              apply hg
              rw [hseq]
              exact clampGuard_line_mono c L true (clampAux R true) R hG
            rw [clampFreeB_cons_neg _ _ _ hgY]
            rw [show (decide (c = '\n')) = false from by simp [hc]]
            rw [clampFreeB_line L _ hLnl]
            have hRlen : R.length ≤ n := by
              have hcg := congrArg List.length hseq
              rw [List.length_append, List.length_cons] at hcg
              rw [List.length_cons] at hr
              omega
            exact ih.2 R hRlen
          · rw [clampAux_no_nl s' hnl]
            rw [clampFreeB_cons_neg c s' true hg]
            rw [show (decide (c = '\n')) = false from by simp [hc]]
            exact clampFree_no_nl s' hnl

theorem clampFree_of_clamp (s : Str) : clampFreeB (clampHeadings s) true = true := by
  unfold clampHeadings
  exact (clampFree_ind s.length).2 s le_rfl

theorem collapseAux_other (c : Char) (s : Str) (hc : c ≠ '\\') :
    collapseAux (c :: s) = c :: collapseAux s := by
  rw [collapseAux.eq_def]
  dsimp only []
  rw [if_neg hc]

theorem collapseAux_bs (s : Str) :
    collapseAux ('\\' :: s) =
      if 3 ≤ (s.takeWhile (· = 'n')).length then
        str "\\n\\n" ++ collapseAux (s.drop (s.takeWhile (· = 'n')).length)
      else '\\' :: collapseAux s := by
  rw [collapseAux.eq_def]
  dsimp only []
  rw [if_pos rfl]

theorem collapseAux_nil : collapseAux [] = [] := by
  rw [collapseAux.eq_def]

theorem collapseAux_head (d : Char) (u : Str) : ∃ z, collapseAux (d :: u) = d :: z := by
  by_cases hd : d = '\\'
  · subst hd
    rw [collapseAux_bs]
    by_cases h3 : 3 ≤ (u.takeWhile (· = 'n')).length
    · rw [if_pos h3]
      exact ⟨'n' :: '\\' :: 'n' :: collapseAux (u.drop (u.takeWhile (· = 'n')).length),
        by simp [str]⟩
    · rw [if_neg h3]
      exact ⟨collapseAux u, rfl⟩
  · rw [collapseAux_other _ _ hd]
    exact ⟨collapseAux u, rfl⟩

theorem collapseAux_no_bs : ∀ r : Str, '\\' ∉ r → collapseAux r = r := by
  intro r
  induction r with
  | nil => intro h; exact collapseAux_nil
  | cons c cs ih =>
    intro h
    have hc : c ≠ '\\' := fun e => h (by rw [← e]; exact List.mem_cons_self _ _)
    rw [collapseAux_other _ _ hc, ih (fun hm => h (List.mem_cons_of_mem _ hm))]

theorem collapseAux_copy : ∀ L Y : Str, '\\' ∉ L →
    collapseAux (L ++ Y) = L ++ collapseAux Y := by
  intro L
  induction L with
  | nil => intro Y h; rfl
  | cons c cs ih =>
    intro Y h
    have hc : c ≠ '\\' := fun e => h (by rw [← e]; exact List.mem_cons_self _ _)
    rw [List.cons_append, collapseAux_other _ _ hc,
      ih Y (fun hm => h (List.mem_cons_of_mem _ hm))]
    rfl

theorem drop_takeWhile_length (p : Char → Bool) : ∀ s : Str,
    s.drop (s.takeWhile p).length = s.dropWhile p := by
  intro s
  induction s with
  | nil => rfl
  | cons c cs ih =>
    rw [List.takeWhile_cons, List.dropWhile_cons]
    by_cases hp : p c = true
    · rw [if_pos hp, if_pos hp, List.length_cons, List.drop_succ_cons]
      exact ih
    · rw [if_neg hp, if_neg hp]
      rfl

theorem collapseAux_takeWhile (p : Char → Bool) (hp : p '\\' = false) :
    ∀ n : Nat, ∀ u : Str, u.length ≤ n →
      (collapseAux u).takeWhile p = u.takeWhile p := by
  intro n
  induction n with
  | zero =>
    intro u hu
    have hu0 : u = [] := List.length_eq_zero.mp (Nat.le_zero.mp hu)
    subst hu0
    rw [collapseAux_nil]
  | succ n ih =>
    intro u hu
    cases u with
    | nil => rw [collapseAux_nil]
    | cons c u' =>
      by_cases hpc : p c = true
      · have hc : c ≠ '\\' := by
          intro e
          rw [e, hp] at hpc
          exact Bool.noConfusion hpc
        rw [collapseAux_other c u' hc, List.takeWhile_cons, if_pos hpc,
          List.takeWhile_cons, if_pos hpc,
          ih u' (by rw [List.length_cons] at hu; omega)]
      · obtain ⟨z, hz⟩ := collapseAux_head c u'
        rw [hz, List.takeWhile_cons, if_neg hpc, List.takeWhile_cons, if_neg hpc]

theorem isLead_nnn_false {t D : Str} (ht : ∀ x ∈ t, x = 'n') (hlen : t.length ≤ 2)
    (hD : D = [] ∨ ∃ d z, D = d :: z ∧ d ≠ 'n') :
    isLead (str "nnn") (t ++ D) = false := by
  cases t with
  | nil =>
    rcases hD with h | ⟨d, z, hdz, hd⟩
    · subst h; decide
    · subst hdz
      simp [str, isLead, Ne.symm hd]
  | cons a t' =>
    have ha : a = 'n' := ht a (by simp)
    subst ha
    cases t' with
    | nil =>
      rcases hD with h | ⟨d, z, hdz, hd⟩
      · subst h; decide
      · subst hdz
        simp [str, isLead, Ne.symm hd]
    | cons b t'' =>
      have hb : b = 'n' := ht b (by simp)
      subst hb
      cases t'' with
      | nil =>
        rcases hD with h | ⟨d, z, hdz, hd⟩
        · subst h; decide
        · subst hdz
          simp [str, isLead, Ne.symm hd]
      | cons x t3 =>
        exfalso
        simp only [List.length_cons] at hlen
        omega

theorem collapse_triple_free : ∀ n : Nat, ∀ s : Str, s.length ≤ n →
    containsSub (collapseAux s) (str "\\nnn") = false := by
  intro n
  induction n with
  | zero =>
    intro s hs
    have hs0 : s = [] := List.length_eq_zero.mp (Nat.le_zero.mp hs)
    subst hs0
    rw [collapseAux_nil]
    decide
  | succ n ih =>
    intro s hs
    cases s with
    | nil =>
      rw [collapseAux_nil]
      decide
    | cons c s' =>
      by_cases hc : c = '\\'
      · subst hc
        rw [collapseAux_bs]
        have hd3 : s'.drop (s'.takeWhile (· = 'n')).length = s'.dropWhile (· = 'n') :=
          drop_takeWhile_length _ s'
        have hZ : collapseAux (s'.drop (s'.takeWhile (· = 'n')).length) = [] ∨
            ∃ d z, collapseAux (s'.drop (s'.takeWhile (· = 'n')).length) = d :: z ∧
              d ≠ 'n' := by
          rw [hd3]
          cases hdw : s'.dropWhile (· = 'n') with
          | nil =>
            left
            rw [collapseAux_nil]
          | cons d z0 =>
            right
            obtain ⟨z, hz⟩ := collapseAux_head d z0
            exact ⟨d, z, hz, by simpa using dropWhile_head_not _ hdw⟩
        have hIH : containsSub (collapseAux (s'.drop (s'.takeWhile (· = 'n')).length))
            (str "\\nnn") = false := by
          apply ih
          have h1 := List.length_drop (s'.takeWhile (· = 'n')).length s'
          rw [List.length_cons] at hs
          omega
        by_cases h3 : 3 ≤ (s'.takeWhile (· = 'n')).length
        · rw [if_pos h3]
          rw [show str "\\n\\n" ++ collapseAux (s'.drop (s'.takeWhile (· = 'n')).length) =
              '\\' :: 'n' :: '\\' :: 'n' ::
                collapseAux (s'.drop (s'.takeWhile (· = 'n')).length) from by simp [str]]
          rw [containsSub, containsSub, containsSub, containsSub, hIH]
          have k1 : isLead (str "\\nnn") ('\\' :: 'n' :: '\\' :: 'n' ::
              collapseAux (s'.drop (s'.takeWhile (· = 'n')).length)) = false := by
            simp [str, isLead]
          have k2 : isLead (str "\\nnn") ('n' :: '\\' :: 'n' ::
              collapseAux (s'.drop (s'.takeWhile (· = 'n')).length)) = false := by
            simp [str, isLead]
          have k3 : isLead (str "\\nnn") ('\\' :: 'n' ::
              collapseAux (s'.drop (s'.takeWhile (· = 'n')).length)) = false := by
            rcases hZ with h0 | ⟨d, z, hdz, hd⟩
            · rw [h0]
              decide
            · rw [hdz]
              simp [str, isLead, Ne.symm hd]
          have k4 : isLead (str "\\nnn") ('n' ::
              collapseAux (s'.drop (s'.takeWhile (· = 'n')).length)) = false := by
            simp [str, isLead]
          rw [k1, k2, k3, k4]
          rfl
        · rw [if_neg h3]
          rw [containsSub]
          have hIH2 : containsSub (collapseAux s') (str "\\nnn") = false :=
            ih s' (by rw [List.length_cons] at hs; omega)
          have htonly : ∀ x ∈ s'.takeWhile (· = 'n'), x = 'n' := fun x hx => by
            simpa using List.mem_takeWhile_imp hx
          have hbsfree : '\\' ∉ s'.takeWhile (· = 'n') := by
            intro hm
            exact absurd (htonly _ hm) (by decide)
          have hcc : collapseAux s' =
              s'.takeWhile (· = 'n') ++ collapseAux (s'.dropWhile (· = 'n')) := by
            conv_lhs => rw [show s' = s'.takeWhile (· = 'n') ++ s'.dropWhile (· = 'n') from
              (List.takeWhile_append_dropWhile _ _).symm]
            exact collapseAux_copy _ _ hbsfree
          have hZ' : collapseAux (s'.dropWhile (· = 'n')) = [] ∨
              ∃ d z, collapseAux (s'.dropWhile (· = 'n')) = d :: z ∧ d ≠ 'n' := by
            cases hdw : s'.dropWhile (· = 'n') with
            | nil =>
              left
              rw [collapseAux_nil]
            | cons d z0 =>
              right
              obtain ⟨z, hz⟩ := collapseAux_head d z0
              exact ⟨d, z, hz, by simpa using dropWhile_head_not _ hdw⟩
          have hnnn : isLead (str "nnn") (collapseAux s') = false := by
            rw [hcc]
            exact isLead_nnn_false htonly (by omega) hZ'
          have hlead : isLead (str "\\nnn") ('\\' :: collapseAux s') = false := by
            rw [show str "\\nnn" = '\\' :: str "nnn" from by decide]
            simp [isLead, hnnn]
          rw [hlead, hIH2]
          rfl
      · rw [collapseAux_other _ _ hc]
        rw [containsSub]
        have hIH : containsSub (collapseAux s') (str "\\nnn") = false :=
          ih s' (by rw [List.length_cons] at hs; omega)
        rw [hIH]
        rw [show isLead (str "\\nnn") (c :: collapseAux s') = false from by
          simp [str, isLead, Ne.symm hc]]
        rfl

theorem collapse_id_of_triple_free : ∀ n : Nat, ∀ s : Str, s.length ≤ n →
    containsSub s (str "\\nnn") = false → collapseAux s = s := by
  intro n
  induction n with
  | zero =>
    intro s hs h
    have hs0 : s = [] := List.length_eq_zero.mp (Nat.le_zero.mp hs)
    subst hs0
    exact collapseAux_nil
  | succ n ih =>
    intro s hs h
    cases s with
    | nil => exact collapseAux_nil
    | cons c s' =>
      have hfree : containsSub s' (str "\\nnn") = false := by
        cases hcs : containsSub s' (str "\\nnn") with
        | false => rfl
        | true =>
          exfalso
          have htrue := containsSub_cons_of c hcs
          rw [htrue] at h
          exact absurd h (by decide)
      by_cases hc : c = '\\'
      · subst hc
        rw [collapseAux_bs]
        have h3 : ¬ 3 ≤ (s'.takeWhile (· = 'n')).length := by
          intro hge
          cases ht : s'.takeWhile (· = 'n') with
          | nil => rw [ht] at hge; simp at hge
          | cons a t1 =>
            cases t1 with
            | nil => rw [ht] at hge; simp at hge
            | cons b t2 =>
              cases t2 with
              | nil => rw [ht] at hge; simp at hge
              | cons e t3 =>
                have ha : a = 'n' := by
                  have hm : a ∈ s'.takeWhile (· = 'n') := by rw [ht]; simp
                  simpa using List.mem_takeWhile_imp hm
                have hbq : b = 'n' := by
                  have hm : b ∈ s'.takeWhile (· = 'n') := by rw [ht]; simp
                  simpa using List.mem_takeWhile_imp hm
                have heq : e = 'n' := by
                  have hm : e ∈ s'.takeWhile (· = 'n') := by rw [ht]; simp
                  simpa using List.mem_takeWhile_imp hm
                subst ha
                subst hbq
                subst heq
                have hpre : s'.takeWhile (· = 'n') <+: s' := List.takeWhile_prefix _
                obtain ⟨u, hu⟩ := hpre
                rw [ht] at hu
                have htrue : containsSub ('\\' :: s') (str "\\nnn") = true := by
                  apply containsSub_of_isLead
                  rw [← hu]
                  simp [str, isLead]
                rw [htrue] at h
                exact absurd h (by decide)
        rw [if_neg h3]
        rw [ih s' (by rw [List.length_cons] at hs; omega) hfree]
      · rw [collapseAux_other _ _ hc]
        rw [ih s' (by rw [List.length_cons] at hs; omega) hfree]

theorem guard_collapse_mono (c : Char) (u : Str) (b : Bool)
    (hG : b = true ∧ 5 ≤ ((c :: collapseAux u).takeWhile (· = '#')).length ∧
      isLead ['\\'] ((c :: collapseAux u).drop
        ((c :: collapseAux u).takeWhile (· = '#')).length) ∧
      (((c :: collapseAux u).drop
        ((c :: collapseAux u).takeWhile (· = '#')).length).drop 1).takeWhile (· = 's')
        ≠ []) :
    b = true ∧ 5 ≤ ((c :: u).takeWhile (· = '#')).length ∧
      isLead ['\\'] ((c :: u).drop ((c :: u).takeWhile (· = '#')).length) ∧
      (((c :: u).drop ((c :: u).takeWhile (· = '#')).length).drop 1).takeWhile (· = 's')
        ≠ [] := by
  obtain ⟨hb, h5, hl, hr⟩ := hG
  by_cases hch : c = '#'
  case neg =>
    exfalso
    rw [List.takeWhile_cons, if_neg (by simp [hch])] at h5
    simp at h5
  subst hch
  have htwc : (collapseAux u).takeWhile (· = '#') = u.takeWhile (· = '#') :=
    collapseAux_takeWhile _ (by decide) u.length u le_rfl
  have hktw : (('#' :: collapseAux u : Str).takeWhile (· = '#')) =
      '#' :: u.takeWhile (· = '#') := by
    rw [List.takeWhile_cons, if_pos (by decide), htwc]
  have hktw2 : (('#' :: u : Str).takeWhile (· = '#')) = '#' :: u.takeWhile (· = '#') := by
    rw [List.takeWhile_cons, if_pos (by decide)]
  rw [hktw] at h5 hl hr
  rw [hktw2]
  rw [List.length_cons] at h5 hl hr
  rw [List.length_cons]
  rw [List.drop_succ_cons] at hl hr
  rw [List.drop_succ_cons]
  have hcopy : collapseAux u =
      u.takeWhile (· = '#') ++ collapseAux (u.dropWhile (· = '#')) := by
    conv_lhs => rw [show u = u.takeWhile (· = '#') ++ u.dropWhile (· = '#') from
      (List.takeWhile_append_dropWhile _ _).symm]
    refine collapseAux_copy _ _ ?_
    intro hm
    have hx := List.mem_takeWhile_imp hm
    simp at hx
  have hdropc : (collapseAux u).drop (u.takeWhile (· = '#')).length =
      collapseAux (u.dropWhile (· = '#')) := by
    rw [hcopy]
    exact List.drop_left _ _
  have hdropu : u.drop (u.takeWhile (· = '#')).length = u.dropWhile (· = '#') :=
    drop_takeWhile_length _ u
  rw [hdropc] at hl hr
  rw [hdropu]
  cases hR : u.dropWhile (· = '#') with
  | nil =>
    rw [hR, collapseAux_nil] at hl
    exact absurd hl (by decide)
  | cons d r2 =>
    rw [hR] at hl hr
    obtain ⟨z, hz⟩ := collapseAux_head d r2
    have hdz : d = '\\' := by
      rw [hz] at hl
      have h1 : ('\\' : Char) = d := by simpa [isLead] using hl
      exact h1.symm
    subst hdz
    refine ⟨hb, h5, by simp [isLead], ?_⟩
    rw [List.drop_one, List.tail_cons]
    rw [collapseAux_bs] at hr
    by_cases h3 : 3 ≤ (r2.takeWhile (· = 'n')).length
    · exfalso
      rw [if_pos h3] at hr
      rw [show str "\\n\\n" ++ collapseAux (r2.drop (r2.takeWhile (· = 'n')).length) =
          '\\' :: 'n' :: '\\' :: 'n' ::
            collapseAux (r2.drop (r2.takeWhile (· = 'n')).length) from by simp [str]] at hr
      rw [List.drop_one, List.tail_cons, List.takeWhile_cons, if_neg (by decide)] at hr
      exact absurd rfl hr
    · rw [if_neg h3] at hr
      rw [List.drop_one, List.tail_cons] at hr
      rw [collapseAux_takeWhile (· = 's') (by decide) r2.length r2 le_rfl] at hr
      exact hr

theorem collapse_preserves_free : ∀ n : Nat, ∀ s : Str, s.length ≤ n → ∀ b : Bool,
    clampFreeB s b = true → clampFreeB (collapseAux s) b = true := by
  intro n
  induction n with
  | zero =>
    intro s hs b h
    have hs0 : s = [] := List.length_eq_zero.mp (Nat.le_zero.mp hs)
    subst hs0
    rw [collapseAux_nil]
    exact h
  | succ n ih =>
    intro s hs b h
    cases s with
    | nil => rw [collapseAux_nil]; exact h
    | cons c s' =>
      by_cases hc : c = '\\'
      · subst hc
        rw [clampFreeB_step_nohash '\\' s' b (by decide),
          show (decide ('\\' = '\n')) = false from by decide] at h
        rw [collapseAux_bs]
        by_cases h3 : 3 ≤ (s'.takeWhile (· = 'n')).length
        · rw [if_pos h3]
          have hsplit : s' = s'.takeWhile (· = 'n') ++
              s'.drop (s'.takeWhile (· = 'n')).length := by
            rw [drop_takeWhile_length]
            exact (List.takeWhile_append_dropWhile _ s').symm
          have hnot : '\n' ∉ s'.takeWhile (· = 'n') := by
            intro hm
            have := List.mem_takeWhile_imp hm
            simp at this
          have h2 : clampFreeB (s'.takeWhile (· = 'n') ++
              s'.drop (s'.takeWhile (· = 'n')).length) false = true := by
            rw [← hsplit]
            exact h
          rw [clampFreeB_skip _ _ hnot] at h2
          rw [show str "\\n\\n" ++ collapseAux (s'.drop (s'.takeWhile (· = 'n')).length) =
              '\\' :: 'n' :: '\\' :: 'n' ::
                collapseAux (s'.drop (s'.takeWhile (· = 'n')).length) from by simp [str]]
          rw [clampFreeB_step_nohash _ _ _ (by decide),
            show (decide ('\\' = '\n')) = false from by decide,
            clampFreeB_step_nohash _ _ _ (by decide),
            show (decide ('n' = '\n')) = false from by decide,
            clampFreeB_step_nohash _ _ _ (by decide),
            show (decide ('\\' = '\n')) = false from by decide,
            clampFreeB_step_nohash _ _ _ (by decide),
            show (decide ('n' = '\n')) = false from by decide]
          refine ih _ ?_ false h2
          have h1 := List.length_drop (s'.takeWhile (· = 'n')).length s'
          rw [List.length_cons] at hs
          omega
        · rw [if_neg h3]
          rw [clampFreeB_step_nohash _ _ _ (by decide),
            show (decide ('\\' = '\n')) = false from by decide]
          exact ih s' (by rw [List.length_cons] at hs; omega) false h
      · rw [collapseAux_other _ _ hc]
        by_cases hg : b = true ∧ 5 ≤ ((c :: s').takeWhile (· = '#')).length ∧
            isLead ['\\'] ((c :: s').drop ((c :: s').takeWhile (· = '#')).length) ∧
            (((c :: s').drop ((c :: s').takeWhile (· = '#')).length).drop 1).takeWhile
              (· = 's') ≠ []
        · rw [clampFreeB_cons_pos c s' b hg] at h
          exact absurd h (by simp)
        · rw [clampFreeB_cons_neg c s' b hg] at h
          have hg' : ¬(b = true ∧
              5 ≤ ((c :: collapseAux s').takeWhile (· = '#')).length ∧
              isLead ['\\'] ((c :: collapseAux s').drop
                ((c :: collapseAux s').takeWhile (· = '#')).length) ∧
              (((c :: collapseAux s').drop
                ((c :: collapseAux s').takeWhile (· = '#')).length).drop 1).takeWhile
                (· = 's') ≠ []) :=
            fun hG => hg (guard_collapse_mono c s' b hG)
          rw [clampFreeB_cons_neg _ _ _ hg']
          exact ih s' (by rw [List.length_cons] at hs; omega) _ h

/-- C8, amended.  The cleanup transforms of `optimize` — the
`simplifyStructure` rewrite `replace(/^#{5,}\\s+/gm, '#### ')` followed
by the `removeRedundancy` rewrite `replace(/\\n{3,}/g, '\\n\\n')`, in
the order `optimize` applies them — are idempotent: running the cleanup
pass twice gives the same result as running it once, for every input
string.  (With the literal doubled backslashes of the source, neither
transform ever fires on a real heading or on real blank lines — see the
counterexample — but the idempotence equation itself holds.) -/
theorem c8_cleanup_idempotent (x : Str) : cleanupPass (cleanupPass x) = cleanupPass x := by
  unfold cleanupPass collapseBlankLines clampHeadings
  have k1 : clampFreeB (clampAux x true) true = true := (clampFree_ind x.length).2 x le_rfl
  have k4 : clampFreeB (collapseAux (clampAux x true)) true = true :=
    collapse_preserves_free (clampAux x true).length _ le_rfl true k1
  rw [clampAux_of_free _ _ k4]
  exact collapse_id_of_triple_free (collapseAux (clampAux x true)).length _ le_rfl
    (collapse_triple_free (clampAux x true).length _ le_rfl)

/-- C8, counterexample to the claim's reading of the transforms: the
cleanup pass does NOT collapse real blank lines and does NOT clamp a
real deep heading — on an input that starts with a five-`#` heading and
contains a run of three real newlines, `cleanupPass` is the identity
(the literal patterns `/^#{5,}\\s+/m` and `/\\n{3,}/` need a literal
backslash and so never match real text). -/
theorem c8_counterexample :
    cleanupPass (str "##### Deep\na\n\n\n\nb") = str "##### Deep\na\n\n\n\nb" ∧
      containsSub (str "##### Deep\na\n\n\n\nb") (str "\n\n\n") = true ∧
      isLead (str "##### ") (str "##### Deep\na\n\n\n\nb") = true := by
  refine ⟨?_, by decide, by decide⟩
  unfold cleanupPass collapseBlankLines clampHeadings
  rw [clampAux_of_free _ _ (by decide)]
  exact collapse_id_of_triple_free (str "##### Deep\na\n\n\n\nb").length _ le_rfl (by decide)
